import Mathlib

/-!
# Word-count pipeline: splitter, mapper, reducer

A shallow embedding of `hw4_mapreduce/{splitter,mapper,reducer}/main.go`.

Modelling conventions.

* A Go `string` is the list of runes the standard library decodes it to
  (`Str = List Char`); an invalid byte decodes to U+FFFD, which is a `Char`.
  Byte-wise string comparison agrees with rune-wise lexicographic comparison.
* A Go `int` is an `Int` kept in the 64-bit two's-complement range by `wrap64`
  after every addition (`int` on a 64-bit platform).
* `unicode.ToLower` is followed on ASCII; outside ASCII it reads the Unicode case
  table, which is a parameter (`lowerTable`), so results hold for any table.
* A Go `map[string]int` is an association list with each key at most once
  (`GoMap.WF`); reading a missing key gives 0, writing a missing key appends.
  Go leaves the iteration order of a map unspecified, so results are stated on
  lookups, or shown independent of the order of the entries.
* The object store, the AWS client set-up, the clock and the JSON codec are
  outside the repository; handlers take them as an explicit environment and
  record every store request in a log.
-/

namespace MapReduce

/-! ## Go strings -/

/-- Go string, as its sequence of runes. -/
abbrev Str := List Char

/-- Go `unicode.ToLower`: ASCII is handled inline, every other rune goes through
the Unicode case table, which is a parameter here. -/
def toLowerRune (lowerTable : Char → Char) (r : Char) : Char :=
  if r.toNat ≤ 0x7F then
    if 'A' ≤ r ∧ r ≤ 'Z' then Char.ofNat (r.toNat + 32) else r
  else lowerTable r

/-- Go `strings.ToLower`: every rune mapped through `unicode.ToLower`. -/
def toLower (lowerTable : Char → Char) (s : Str) : Str :=
  s.map (toLowerRune lowerTable)

/-- Character class `[a-z]`. -/
def isAZ (c : Char) : Bool :=
  decide ('a' ≤ c) && decide (c ≤ 'z')

/-- Scanner behind `replaceAllNonLetters`; `inRun` tells that the previous rune
was outside `[a-z]`, so that the current run has already been replaced. -/
def replaceAux : Bool → Str → Str
  | _, [] => []
  | inRun, c :: cs =>
    if isAZ c then c :: replaceAux false cs
    else if inRun then replaceAux true cs
    else ' ' :: replaceAux true cs

/-- The call `nonLetters.ReplaceAllString(s, " ")` with `nonLetters = [^a-z]+`:
every maximal run of runes outside `[a-z]` becomes one space. -/
def replaceAllNonLetters (s : Str) : Str :=
  replaceAux false s

/-- Go `unicode.IsSpace`. -/
def isSpace (c : Char) : Bool :=
  let n := c.toNat
  if n ≤ 0xFF then
    n = 0x09 || n = 0x0A || n = 0x0B || n = 0x0C || n = 0x0D || n = 0x20 || n = 0x85 || n = 0xA0
  else
    n = 0x1680 || (0x2000 ≤ n && n ≤ 0x200A) || n = 0x2028 || n = 0x2029 || n = 0x202F
      || n = 0x205F || n = 0x3000

/-- Scanner behind `fields`; `cur` is the field being read, last rune first. -/
def fieldsAux : Str → Str → List Str
  | cur, [] => if cur.isEmpty then [] else [cur.reverse]
  | cur, c :: cs =>
    if isSpace c then
      if cur.isEmpty then fieldsAux [] cs else cur.reverse :: fieldsAux [] cs
    else fieldsAux (c :: cur) cs

/-- Go `strings.Fields`: the maximal runs of non-space runes, in order. -/
def fields (s : Str) : List Str :=
  fieldsAux [] s

/-- Go `strings.Join`. -/
def join (xs : List Str) (sep : Str) : Str :=
  sep.intercalate xs

/-- Go `strings.HasSuffix`. -/
def hasSuffix (s suffix : Str) : Bool :=
  suffix.isSuffixOf s

/-- Go `strings.HasPrefix`. -/
def hasPrefix (s pre : Str) : Bool :=
  pre.isPrefixOf s

/-- Go `strings.TrimPrefix`. -/
def trimPrefix (s pre : Str) : Str :=
  if hasPrefix s pre then s.drop pre.length else s

/-- Go `strings.TrimSuffix`. -/
def trimSuffix (s suffix : Str) : Str :=
  if hasSuffix s suffix then s.take (s.length - suffix.length) else s

/-! ## Go ints and maps -/

/-- Two's-complement reduction of an integer to the range of a 64-bit `int`. -/
def wrap64 (x : Int) : Int :=
  (x + 9223372036854775808) % 18446744073709551616 - 9223372036854775808

/-- Go `a + b` on `int`. -/
def intAdd (a b : Int) : Int :=
  wrap64 (a + b)

/-- Go `map[string]int`. -/
abbrev GoMap := List (Str × Int)

namespace GoMap

/-- The value stored under `w`, if the key is present. -/
def lookup (m : GoMap) (w : Str) : Option Int :=
  (m.find? (fun e => e.1 == w)).map Prod.snd

/-- Go `m[w]` as an expression: the zero value when the key is missing. -/
def get (m : GoMap) (w : Str) : Int :=
  (lookup m w).getD 0

/-- Go `m[w] = v`. -/
def set : GoMap → Str → Int → GoMap
  | [], w, v => [(w, v)]
  | e :: es, w, v => if e.1 == w then (w, v) :: es else e :: set es w v

/-- The keys of the map. -/
def keys (m : GoMap) : List Str :=
  m.map Prod.fst

/-- Every key occurs once. -/
def WF (m : GoMap) : Prop :=
  (keys m).Nodup

instance instDecidableWF (m : GoMap) : Decidable (WF m) :=
  inferInstanceAs (Decidable (keys m).Nodup)

/-- Two maps with the same keys and the same value under each key. -/
def Same (m₁ m₂ : GoMap) : Prop :=
  ∀ w, lookup m₁ w = lookup m₂ w

end GoMap

/-- Every value of the map is in the range of a Go `int`. -/
def GoMap.InRange (m : GoMap) : Prop :=
  ∀ w, wrap64 (m.get w) = m.get w

/-! ## Mapper: the word counter -/

/-- The loop `for _, w := range fields { counts[w]++ }`. -/
def tally (counts : GoMap) (ws : List Str) : GoMap :=
  ws.foldl (fun m w => m.set w (intAdd (m.get w) 1)) counts

/-- The tokens of `countWords`: the first three statements of the function. -/
def tokens (lowerTable : Char → Char) (s : Str) : List Str :=
  fields (replaceAllNonLetters (toLower lowerTable s))

/-- Mapper `countWords`. -/
def countWords (lowerTable : Char → Char) (s : Str) : GoMap × Int :=
  let fs := tokens lowerTable s
  (tally [] fs, (fs.length : Int))

/-! ## Splitter: partitioning and serialisation -/

/-- The statement `chunks[i] = append(chunks[i], line)`. -/
def appendAt (chunks : List (List Str)) (i : Nat) (line : Str) : List (List Str) :=
  chunks.set i (chunks.getD i [] ++ [line])

/-- The loop `for idx, line := range lines` of `splitLinesEvenly`, from index
`idx` on. -/
def distribute (parts : Nat) : Nat → List Str → List (List Str) → List (List Str)
  | _, [], chunks => chunks
  | idx, line :: rest, chunks =>
    distribute parts (idx + 1) rest (appendAt chunks (idx % parts) line)

/-- Splitter `splitLinesEvenly`. The result is `none` where the Go code panics:
`make` with a negative length, and `idx % parts` with `parts = 0`. -/
def splitLinesEvenly (lines : List Str) (parts : Int) : Option (List (List Str)) :=
  if parts < 0 then none
  else if parts = 0 ∧ lines ≠ [] then none
  else some (distribute parts.toNat 0 lines (List.replicate parts.toNat []))

/-- Splitter `formatChunkContent`. -/
def formatChunkContent (lines : List Str) : Str :=
  let content := join lines ['\n']
  if !hasSuffix content ['\n'] then content ++ ['\n'] else content

/-- Spec side of "interleaving the partitions back by idx mod N": position `idx`
of the result is element `idx / N` of partition `idx % N`, for `total` lines. -/
def interleave (chunks : List (List Str)) (total : Nat) : List Str :=
  (List.range total).filterMap
    (fun idx => (chunks.getD (idx % chunks.length) [])[idx / chunks.length]?)

/-- Spec side of the word counter: the maximal runs of `[a-z]` runes of a text,
in order. The text is cut at every rune outside `[a-z]`, and the pieces that are
not empty are kept. -/
def letterRuns (s : Str) : List Str :=
  (s.splitOnP (fun c => !isAZ c)).filter (fun r => !r.isEmpty)

/-! ## Reducer: the merge loop -/

/-- The struct `payload` that `mergeMapResults` decodes each input into. -/
structure Payload where
  /-- Field `counts`. -/
  counts : GoMap
  /-- Field `totalWords`. -/
  total : Int
  deriving DecidableEq, Repr

/-- The inner loop `for w, cnt := range payload.Counts { merged[w] += cnt }`. -/
def mergeCounts (merged : GoMap) (counts : GoMap) : GoMap :=
  counts.foldl (fun m e => m.set e.1 (intAdd (m.get e.1) e.2)) merged

/-- One turn of the merge loop of `mergeMapResults`, once the input has been
fetched and decoded: the counts are added in, then `totalWords += payload.Total`. -/
def mergeStep (acc : GoMap × Int) (p : Payload) : GoMap × Int :=
  (mergeCounts acc.1 p.counts, intAdd acc.2 p.total)

/-- The merge loop of `mergeMapResults` over decoded inputs, from
`merged = map[string]int{}` and `totalWords = 0`. -/
def mergeAll (ps : List Payload) : GoMap × Int :=
  ps.foldl mergeStep ([], 0)

/-- Two partial results for examples: a = 2 (total 2) and a = 3, b = 1 (total 4). -/
def mergeExample : List Payload :=
  [{ counts := [("a".toList, 2)], total := 2 },
   { counts := [("a".toList, 3), ("b".toList, 1)], total := 4 }]

/-- What the mapper stores for a partition and the reducer reads back from it:
the fields `counts` and `totalWords` of the partial result, computed by
`countWords` on the serialised partition. -/
def mapChunk (lowerTable : Char → Char) (chunk : List Str) : Payload :=
  let r := countWords lowerTable (formatChunkContent chunk)
  { counts := r.1, total := r.2 }

/-! ## Numbers in text -/

deriving instance DecidableEq for Except

/-- Decimal digit `d` as a rune. -/
def digitChar (d : Nat) : Char :=
  Char.ofNat (48 + d)

/-- Decimal digits of `n`, most significant first; `fuel` bounds the recursion
and any value above the number of digits is enough. -/
def decDigits : Nat → Nat → Str
  | 0, _ => []
  | fuel + 1, n =>
    if n < 10 then [digitChar n] else decDigits fuel (n / 10) ++ [digitChar (n % 10)]

/-- The verb `%d` of `fmt.Sprintf` on an `int`. -/
def itoa (n : Int) : Str :=
  if n < 0 then '-' :: decDigits (n.natAbs + 1) n.natAbs else decDigits (n.natAbs + 1) n.natAbs

/-- Value of a run of decimal digits read after `acc`; `none` at a rune that is
not a digit. -/
def parseDigits : Nat → Str → Option Nat
  | acc, [] => some acc
  | acc, c :: cs =>
    if '0' ≤ c ∧ c ≤ '9' then parseDigits (acc * 10 + (c.toNat - 48)) cs else none

/-- Go `strconv.Atoi` on a 64-bit platform: an optional sign, then at least one
decimal digit; a value outside the range of `int` is an error. -/
def atoi (s : Str) : Except Str Int :=
  let neg := s.head? = some '-'
  let ds := if s.head? = some '-' ∨ s.head? = some '+' then s.tail else s
  if ds.isEmpty then .error "invalid syntax".toList
  else
    match parseDigits 0 ds with
    | none => .error "invalid syntax".toList
    | some v =>
      let n : Int := if neg then -(v : Int) else (v : Int)
      if n < -9223372036854775808 ∨ 9223372036854775807 < n then
        .error "value out of range".toList
      else .ok n

/-- Spec side of "an integer": an optional sign and then one or more decimal
digits. -/
def isIntegerText (s : Str) : Bool :=
  let ds := if s.head? = some '-' ∨ s.head? = some '+' then s.tail else s
  !ds.isEmpty && ds.all (fun c => decide ('0' ≤ c) && decide (c ≤ '9'))

/-! ## Object locations -/

/-- Go `strings.SplitN(s, sep, 2)` for a one-rune separator. -/
def splitN2 (s : Str) (sep : Char) : List Str :=
  match s.span (fun c => c != sep) with
  | (a, []) => [a]
  | (a, _ :: b) => [a, b]

/-- The error of `parseS3URL`. -/
def invalidS3URL : Str :=
  "invalid s3 url, expected s3://bucket/key".toList

/-- The function `parseS3URL` (the three stages carry the same text): bucket, key
and error, the error being `none` for Go `nil`. -/
def parseS3URL (u : Str) : Str × Str × Option Str :=
  if !hasPrefix u "s3://".toList then ([], [], some invalidS3URL)
  else
    let trim := trimPrefix u "s3://".toList
    let parts := splitN2 trim '/'
    if parts.length ≠ 2 ∨ parts.getD 0 [] = [] ∨ parts.getD 1 [] = [] then
      ([], [], some invalidS3URL)
    else (parts.getD 0 [], parts.getD 1 [], none)

/-- The location `fmt.Sprintf("s3://%s/%s", bucket, key)` a stage reports for
what it wrote. -/
def s3URL (bucket key : Str) : Str :=
  "s3://".toList ++ bucket ++ '/' :: key

/-! ## The world outside: store, client, clock, codec -/

/-- A request sent to the object store. -/
inductive StoreOp where
  /-- The call `GetObject(bucket, key)`. -/
  | get (bucket key : Str)
  /-- The call `PutObject(bucket, key, body, contentType)`. -/
  | put (bucket key content contentType : Str)
  deriving DecidableEq, Repr

/-- What a handler run depends on and does not compute itself. -/
structure Env where
  /-- Error of `config.LoadDefaultConfig`, `none` for `nil`. -/
  clientErr : Option Str
  /-- Outcome of `GetObject` followed by `io.ReadAll`. -/
  getObject : Str → Str → Except Str Str
  /-- Error of `PutObject(bucket, key, content, contentType)`, `none` for `nil`. -/
  putObject : Str → Str → Str → Str → Option Str
  /-- Outcome of `bufio.Scanner` with `ScanLines` over a body. -/
  scanLines : Str → Except Str (List Str)
  /-- Go `len` of a string, in bytes. -/
  byteLen : Str → Int
  /-- Outcome of `json.Unmarshal` into the payload struct of `mergeMapResults`. -/
  unmarshal : Str → Except Str Payload
  /-- Result of `json.Marshal` on the final payload: inputs, counts, uniqueWords,
  totalWords, createdAt. -/
  marshalFinal : List Str → GoMap → Int → Int → Str → Str
  /-- Result of `json.Marshal` on the payload of the mapper: chunk, counts,
  uniqueWords, totalWords, createdAt. -/
  marshalMap : Str → GoMap → Int → Int → Str → Str
  /-- Reading `time.Now().Format(time.RFC3339)` taken when the payload is built. -/
  createdAt : Str
  /-- Reading `time.Now().Format(time.RFC3339)` taken when the response is built. -/
  respondedAt : Str
  /-- Reading `time.Since(start).Milliseconds()`. -/
  elapsedMs : Int
  /-- Case table of `unicode.ToLower` outside ASCII. -/
  lowerTable : Char → Char

/-- Body of a handler response. -/
inductive Body where
  /-- The document `{"error": msg}`. -/
  | error (msg : Str)
  /-- The struct `SplitResponse`: input, parts, chunks, bytes, lines. -/
  | split (input : Str) (parts : Int) (chunks : List Str) (bytes lines : Int)
  /-- The struct `ReduceResponse`: inputs, final, top10, uniqueWords, totalWords, ms,
  createdAt. -/
  | reduce (inputs : List Str) (final : Str) (top10 : List (Str × Int)) (unique total : Int)
      (ms : Int) (created : Str)
  /-- The struct `MapResult`: chunk, output, uniqueWords, totalWords, ms, out_prefix. -/
  | map (chunk output : Str) (unique total : Int) (ms : Int) (outPrefix : Str)
  deriving DecidableEq, Repr

/-- Status and body written with `c.JSON`. -/
structure Response where
  /-- HTTP status. -/
  status : Nat
  /-- JSON body. -/
  body : Body
  deriving DecidableEq, Repr

/-! ## Reducer: the handler -/

/-- Go `strings.TrimSpace`. -/
def trimSpace (s : Str) : Str :=
  ((s.dropWhile isSpace).reverse.dropWhile isSpace).reverse

/-- Reducer `splitCSV`. -/
def splitCSV (s : Str) : List Str :=
  ((s.splitOnP (fun c => c == ',')).map trimSpace).filter (fun p => !p.isEmpty)

/-- State of the loop of `mergeMapResults`: the variables `merged` and
`totalWords`, and the store requests made so far. -/
structure MergeState where
  /-- Variables `merged` and `totalWords`. -/
  acc : GoMap × Int
  /-- Store requests so far, oldest first. -/
  log : List StoreOp
  deriving DecidableEq, Repr

/-- The error message of the bucket check of `mergeMapResults`. -/
def mixedBucketMsg : Str :=
  "all inputs must be in same bucket for this simple version".toList

/-- The loop of `mergeMapResults` from state `st` over the remaining inputs.
The first component is the response written on failure (`none` when the loop
ran to its end), the second the state in which the loop was left. -/
def mergeLoop (env : Env) (bucket : Str) : List Str → MergeState → Option Response × MergeState
  | [], st => (none, st)
  | input :: rest, st =>
    match parseS3URL input with
    | (_, _, some e) => (some ⟨400, .error ("bad s3 url: ".toList ++ e)⟩, st)
    | (b, key, none) =>
      if b ≠ bucket then (some ⟨400, .error mixedBucketMsg⟩, st)
      else
        let st1 : MergeState := { st with log := st.log ++ [StoreOp.get bucket key] }
        match env.getObject bucket key with
        | .error e => (some ⟨500, .error ("read map json failed: ".toList ++ e)⟩, st1)
        | .ok raw =>
          match env.unmarshal raw with
          | .error e => (some ⟨500, .error ("invalid json from mapper: ".toList ++ e)⟩, st1)
          | .ok payload => mergeLoop env bucket rest { st1 with acc := mergeStep st1.acc payload }

/-- Reducer `mergeMapResults`. -/
def mergeMapResults (env : Env) (bucket : Str) (inputs : List Str) :
    Option Response × MergeState :=
  mergeLoop env bucket inputs { acc := ([], 0), log := [] }

/-- Go `a < b` on strings. -/
def strLt : Str → Str → Bool
  | [], [] => false
  | [], _ :: _ => true
  | _ :: _, [] => false
  | a :: as, b :: bs => if a < b then true else if b < a then false else strLt as bs

/-- The `less` closure of `computeTopK`, on the entries themselves. -/
def topLess (a b : Str × Int) : Bool :=
  if a.2 = b.2 then strLt a.1 b.1 else decide (a.2 > b.2)

/-- Go `sort.Slice`: some sorted rearrangement of the slice. Insertion sort
stands for it; `computeTopK` sorts entries with distinct keys under a total
order, for which the sorted rearrangement is unique. -/
def sortSlice (less : Str × Int → Str × Int → Bool) (arr : List (Str × Int)) :
    List (Str × Int) :=
  arr.insertionSort (fun a b => less b a = false)

/-- Reducer `computeTopK`; `none` where `arr[:k]` panics (negative `k`). -/
def computeTopK (m : GoMap) (k : Int) : Option (List (Str × Int)) :=
  let arr := sortSlice topLess m
  if (arr.length : Int) > k then
    if k < 0 then none else some (arr.take k.toNat)
  else some arr

/-- Spec side of the top-K order: `a` comes before `b` when its count is higher,
or the counts are equal and its word is first in lexicographic order. -/
def Before (a b : Str × Int) : Prop :=
  b.2 < a.2 ∨ (a.2 = b.2 ∧ List.Lex (fun x y : Char => x < y) a.1 b.1)

/-- Query parameters of `/reduce`; `inputs` is empty when absent. -/
structure ReduceQuery where
  /-- Parameter `inputs`. -/
  inputs : Str
  /-- Parameter `out_prefix`, if given. -/
  outPrefix : Option Str

/-- Reducer `handleReduce`: the response and the store requests made. -/
def handleReduce (env : Env) (q : ReduceQuery) : Response × List StoreOp :=
  if q.inputs.isEmpty then
    (⟨400, .error "missing inputs=s3://.../map0.json,s3://.../map1.json,... ".toList⟩, [])
  else
    let inputs := splitCSV q.inputs
    if inputs.length < 1 then
      (⟨400, .error "inputs must contain at least 1 s3 url".toList⟩, [])
    else
      match env.clientErr with
      | some e => (⟨500, .error ("failed to init aws sdk: ".toList ++ e)⟩, [])
      | none =>
        match parseS3URL (inputs.headD []) with
        | (_, _, some e) => (⟨400, .error e⟩, [])
        | (bucket, _, none) =>
          match mergeMapResults env bucket inputs with
          | (some resp, st) => (resp, st.log)
          | (none, st) =>
            let merged := st.acc.1
            let totalWords := st.acc.2
            let outPrefix := q.outPrefix.getD "final".toList
            let outKey := trimSuffix outPrefix ['/'] ++ "/final.json".toList
            let b := env.marshalFinal inputs merged merged.length totalWords env.createdAt
            let log := st.log ++ [StoreOp.put bucket outKey b "application/json".toList]
            match env.putObject bucket outKey b "application/json".toList with
            | some e => (⟨500, .error ("write final failed: ".toList ++ e)⟩, log)
            | none =>
              match computeTopK merged 10 with
              | none => (⟨500, .error "panic".toList⟩, log)
              | some top10 =>
                (⟨200, .reduce inputs (s3URL bucket outKey) top10 merged.length totalWords
                  env.elapsedMs env.respondedAt⟩, log)

/-- Spec side: what the merge loop reads for a location of the bucket, the
decoded payload, `none` when the fetch or the decoding fails. -/
def decodeAt (env : Env) (bucket : Str) (u : Str) : Option Payload :=
  match env.getObject bucket (parseS3URL u).2.1 with
  | .error _ => none
  | .ok raw =>
    match env.unmarshal raw with
    | .error _ => none
    | .ok payload => some payload

/-- Spec side: the fetch the merge loop makes for a location of the bucket. -/
def fetchOf (bucket : Str) (u : Str) : StoreOp :=
  StoreOp.get bucket (parseS3URL u).2.1

/-- An environment for examples: every object of the store reads as "doc", every
document decodes to the counts a = 1 with total 1, and every write succeeds. -/
def exampleEnv : Env where
  clientErr := none
  getObject := fun _ _ => .ok "doc".toList
  putObject := fun _ _ _ _ => none
  scanLines := fun body => .ok [body]
  byteLen := fun s => (s.length : Int)
  unmarshal := fun _ => .ok { counts := [("a".toList, 1)], total := 1 }
  marshalFinal := fun _ _ _ _ _ => "final".toList
  marshalMap := fun _ _ _ _ _ => "partial".toList
  createdAt := "t0".toList
  respondedAt := "t1".toList
  elapsedMs := 0
  lowerTable := id

/-- Reduce request over two locations in two buckets. -/
def mixedQuery : ReduceQuery where
  inputs := "s3://b1/k1,s3://b2/k2".toList
  outPrefix := none

/-! ## Splitter: the handler -/

/-- The error message of `validateParts`. -/
def partsMsg : Str :=
  "parts must be an int in [1..50]".toList

/-- Splitter `validateParts`, on the query parameter `parts` (`none` when the
request does not carry it, and the default "3" applies). -/
def validateParts (parts : Option Str) : Except Str Int :=
  let partsStr := parts.getD "3".toList
  match atoi partsStr with
  | .error _ => .error partsMsg
  | .ok n => if n ≤ 0 ∨ n > 50 then .error partsMsg else .ok n

/-- Splitter `writeChunks` from partition `i` on: the locations written, or the
response of the failed write, and the store requests made. -/
def writeChunks (env : Env) (bucket outPrefix : Str) :
    Nat → List (List Str) → List Str → List StoreOp → Except Response (List Str) × List StoreOp
  | _, [], urls, log => (.ok urls, log)
  | i, chunk :: rest, urls, log =>
    let chunkKey := trimSuffix outPrefix ['/'] ++ "/chunk-".toList ++ itoa i ++ ".txt".toList
    let content := formatChunkContent chunk
    let log1 := log ++ [StoreOp.put bucket chunkKey content "text/plain".toList]
    match env.putObject bucket chunkKey content "text/plain".toList with
    | some e => (.error ⟨500, .error ("write chunk failed: ".toList ++ e)⟩, log1)
    | none => writeChunks env bucket outPrefix (i + 1) rest (urls ++ [s3URL bucket chunkKey]) log1

/-- Splitter `readS3ObjectAsLines`: lines, byte count and line count. -/
def readS3ObjectAsLines (env : Env) (bucket key : Str) : Except Str (List Str × Int × Int) :=
  match env.getObject bucket key with
  | .error e => .error e
  | .ok body =>
    match env.scanLines body with
    | .error e => .error e
    | .ok lines =>
      .ok (lines, lines.foldl (fun n line => intAdd n (intAdd (env.byteLen line) 1)) 0,
        (lines.length : Int))

/-- Query parameters of `/split`; `inputS3` is empty when absent. -/
structure SplitQuery where
  /-- Parameter `input_s3`. -/
  inputS3 : Str
  /-- Parameter `parts`, if given. -/
  parts : Option Str
  /-- Parameter `out_prefix`, if given. -/
  outPrefix : Option Str

/-- Splitter `handleSplit`: the response and the store requests made. -/
def handleSplit (env : Env) (q : SplitQuery) : Response × List StoreOp :=
  if q.inputS3.isEmpty then (⟨400, .error "missing input_s3=s3://bucket/key".toList⟩, [])
  else
    match validateParts q.parts with
    | .error e => (⟨400, .error e⟩, [])
    | .ok parts =>
      match parseS3URL q.inputS3 with
      | (_, _, some e) => (⟨400, .error e⟩, [])
      | (bucket, key, none) =>
        match env.clientErr with
        | some e => (⟨500, .error ("failed to init aws sdk: ".toList ++ e)⟩, [])
        | none =>
          match readS3ObjectAsLines env bucket key with
          | .error e =>
            (⟨500, .error ("read input failed: ".toList ++ e)⟩, [StoreOp.get bucket key])
          | .ok (lines, nbytes, nlines) =>
            match splitLinesEvenly lines parts with
            | none => (⟨500, .error "panic".toList⟩, [StoreOp.get bucket key])
            | some chunkLines =>
              let outPrefix := q.outPrefix.getD "chunks".toList
              match writeChunks env bucket outPrefix 0 chunkLines [] [StoreOp.get bucket key] with
              | (.error resp, log) => (resp, log)
              | (.ok chunkURLs, log) =>
                (⟨200, .split q.inputS3 parts chunkURLs nbytes nlines⟩, log)

/-! ## Mapper: the handler -/

/-- Scanner behind `lastIndex`: `i` is the index of the next rune, `found` the
index of the last separator seen so far. -/
def lastIndexAux (sep : Char) : Nat → Str → Int → Int
  | _, [], found => found
  | i, c :: cs, found => lastIndexAux sep (i + 1) cs (if c = sep then (i : Int) else found)

/-- Go `strings.LastIndex(s, sep)` for a one-rune separator; -1 when absent. -/
def lastIndex (s : Str) (sep : Char) : Int :=
  lastIndexAux sep 0 s (-1)

/-- Mapper `inferIndexFromKey`. -/
def inferIndexFromKey (key : Str) : Str :=
  let i := lastIndex key '/'
  let base := if i ≥ 0 then key.drop (i.toNat + 1) else key
  let base := trimSuffix base ".txt".toList
  if hasPrefix base "chunk-".toList then trimPrefix base "chunk-".toList else "x".toList

/-- The last two statements of `inferIndexFromKey`, on the trailing segment `base`. -/
def indexOfSegment (seg : Str) : Str :=
  if hasPrefix (trimSuffix seg ".txt".toList) "chunk-".toList then
    trimPrefix (trimSuffix seg ".txt".toList) "chunk-".toList
  else "x".toList

/-- Splitter: the key `fmt.Sprintf("%s/chunk-%d.txt", strings.TrimSuffix(outPrefix, "/"), i)`
under which `writeChunks` stores partition `i`. -/
def chunkKey (outPrefix : Str) (i : Nat) : Str :=
  trimSuffix outPrefix ['/'] ++ "/chunk-".toList ++ itoa i ++ ".txt".toList

/-- Query parameters of `/map`; `chunkS3` is empty when absent. -/
structure MapQuery where
  /-- Parameter `chunk_s3`. -/
  chunkS3 : Str
  /-- Parameter `out_prefix`, if given. -/
  outPrefix : Option Str

/-- Mapper: the handler of `/map` in `main`; the response and the store requests
made. -/
def handleMap (env : Env) (q : MapQuery) : Response × List StoreOp :=
  if q.chunkS3.isEmpty then (⟨400, .error "missing chunk_s3=s3://bucket/key".toList⟩, [])
  else
    match parseS3URL q.chunkS3 with
    | (_, _, some e) => (⟨400, .error e⟩, [])
    | (bucket, key, none) =>
      match env.clientErr with
      | some e => (⟨500, .error ("failed to init aws sdk: ".toList ++ e)⟩, [])
      | none =>
        match env.getObject bucket key with
        | .error e =>
          (⟨500, .error ("read chunk failed: ".toList ++ e)⟩, [StoreOp.get bucket key])
        | .ok text =>
          let res := countWords env.lowerTable text
          let counts := res.1
          let total := res.2
          let unique : Int := counts.length
          let outPrefix := q.outPrefix.getD "maps".toList
          let mapIndex := inferIndexFromKey key
          let outKey := trimSuffix outPrefix ['/'] ++ "/map-".toList ++ mapIndex ++ ".json".toList
          let b := env.marshalMap q.chunkS3 counts unique total env.createdAt
          let log := [StoreOp.get bucket key,
            StoreOp.put bucket outKey b "application/json".toList]
          match env.putObject bucket outKey b "application/json".toList with
          | some e => (⟨500, .error ("write map output failed: ".toList ++ e)⟩, log)
          | none =>
            (⟨200, .map q.chunkS3 (s3URL bucket outKey) unique total env.elapsedMs outPrefix⟩, log)

/-- Spec side: where a store request goes, apart from what it carries: a fetch
of a key, or a write to a key with a content type. -/
def StoreOp.address : StoreOp → Bool × Str × Str × Str
  | .get bucket key => (false, bucket, key, [])
  | .put bucket key _ contentType => (true, bucket, key, contentType)

/-- Spec side: the objects a run wrote, as key and bytes. -/
def StoreOp.written : StoreOp → Option (Str × Str × Str)
  | .get _ _ => none
  | .put bucket key content _ => some (bucket, key, content)

/-- The same environment read at another time: the three clock readings are
replaced, the store, client and codec are as before. -/
def Env.atTime (env : Env) (createdAt respondedAt : Str) (elapsedMs : Int) : Env :=
  { env with createdAt := createdAt, respondedAt := respondedAt, elapsedMs := elapsedMs }

/-- An environment for examples whose JSON codec writes the `createdAt` field, as
`json.Marshal` does; the rest is `exampleEnv`. -/
def stampEnv : Env :=
  { exampleEnv with
    marshalFinal := fun _ _ _ _ created => "createdAt=".toList ++ created
    marshalMap := fun _ _ _ _ created => "createdAt=".toList ++ created }

example : countWords id "Hello, WORLD! hello".toList
    = ([("hello".toList, 2), ("world".toList, 1)], 3) := by decide

example : splitLinesEvenly ["a".toList, "b".toList, "c".toList] 2
    = some [["a".toList, "c".toList], ["b".toList]] := by decide

example : formatChunkContent ["a".toList, "c".toList] = "a\nc\n".toList := by decide
example : formatChunkContent [] = "\n".toList := by decide
example : formatChunkContent ["a".toList, []] = "a\n".toList := by decide
example : countWords id [] = ([], 0) := by decide
example : tokens id "a1b_c  D".toList = ["a".toList, "b".toList, "c".toList, "d".toList] := by
  decide
example : splitCSV " s3://b/k1 , ,s3://b/k2".toList = ["s3://b/k1".toList, "s3://b/k2".toList] := by
  decide
example : trimSuffix "chunks/".toList ['/'] = "chunks".toList := by decide
example : inferIndexFromKey "chunks/chunk-12.txt".toList = "12".toList := by decide
example : inferIndexFromKey "chunk-0.txt".toList = "0".toList := by decide
example : inferIndexFromKey "chunks/part.txt".toList = "x".toList := by decide
example : chunkKey "chunks/".toList 12 = "chunks/chunk-12.txt".toList := by decide
example : handleMap exampleEnv ⟨"s3://b/chunks/chunk-1.txt".toList, none⟩
    = (⟨200, .map "s3://b/chunks/chunk-1.txt".toList "s3://b/maps/map-1.json".toList 1 1 0
          "maps".toList⟩,
        [StoreOp.get "b".toList "chunks/chunk-1.txt".toList,
         StoreOp.put "b".toList "maps/map-1.json".toList "partial".toList
           "application/json".toList]) := by
  decide
example : handleReduce exampleEnv ⟨"s3://b1/k1, s3://b1/k2".toList, none⟩
    = (⟨200, .reduce ["s3://b1/k1".toList, "s3://b1/k2".toList]
          "s3://b1/final/final.json".toList [("a".toList, 2)] 1 2 0 "t1".toList⟩,
        [StoreOp.get "b1".toList "k1".toList, StoreOp.get "b1".toList "k2".toList,
         StoreOp.put "b1".toList "final/final.json".toList "final".toList
           "application/json".toList]) := by
  decide
example : handleSplit exampleEnv ⟨"s3://b/in.txt".toList, some "2".toList, none⟩
    = (⟨200, .split "s3://b/in.txt".toList 2
          ["s3://b/chunks/chunk-0.txt".toList, "s3://b/chunks/chunk-1.txt".toList] 4 1⟩,
        [StoreOp.get "b".toList "in.txt".toList,
         StoreOp.put "b".toList "chunks/chunk-0.txt".toList "doc\n".toList "text/plain".toList,
         StoreOp.put "b".toList "chunks/chunk-1.txt".toList "\n".toList "text/plain".toList]) := by
  decide

/-! ## Partitioning: proofs -/

theorem appendAt_length (chunks : List (List Str)) (i : Nat) (x : Str) :
    (appendAt chunks i x).length = chunks.length := by
  simp [appendAt]

theorem distribute_snoc (n : Nat) (rest : List Str) (x : Str) :
    ∀ (idx : Nat) (chunks : List (List Str)),
      distribute n idx (rest ++ [x]) chunks
        = appendAt (distribute n idx rest chunks) ((idx + rest.length) % n) x := by
  induction rest with
  | nil => intro idx chunks; simp [distribute]
  | cons y ys ih =>
    intro idx chunks
    have h := ih (idx + 1) (appendAt chunks (idx % n) y)
    rw [show idx + 1 + ys.length = idx + (ys.length + 1) by omega] at h
    simpa [distribute] using h

theorem distribute_length (n : Nat) (rest : List Str) :
    ∀ (idx : Nat) (chunks : List (List Str)),
      (distribute n idx rest chunks).length = chunks.length := by
  induction rest with
  | nil => intro idx chunks; rfl
  | cons y ys ih => intro idx chunks; simp [distribute, ih, appendAt_length]

theorem succ_div_mod (L n : Nat) (hn : 0 < n) :
    (L % n + 1 < n → (L + 1) / n = L / n ∧ (L + 1) % n = L % n + 1) ∧
    (L % n + 1 = n → (L + 1) / n = L / n + 1 ∧ (L + 1) % n = 0) := by
  have h := Nat.div_add_mod L n
  constructor
  · intro h1
    exact (Nat.div_mod_unique hn).2 ⟨by linarith, h1⟩
  · intro h1
    refine (Nat.div_mod_unique hn).2 ⟨?_, hn⟩
    rw [Nat.mul_add]; linarith

theorem getD_appendAt (chunks : List (List Str)) (k i : Nat) (x : Str) (hk : k < chunks.length) :
    (appendAt chunks k x).getD i [] = if i = k then chunks.getD k [] ++ [x] else chunks.getD i [] := by
  unfold appendAt
  by_cases h : i = k
  · subst h; simp [List.getD_eq_getElem?_getD, hk]
  · simp [List.getD_eq_getElem?_getD, h, List.getElem?_set, Ne.symm h]

/-- Invariant of the round-robin loop. -/
theorem distribute_spec (n : Nat) (hn : 0 < n) (lines : List Str) :
    (distribute n 0 lines (List.replicate n [])).length = n ∧
    ∀ i, i < n →
      ((distribute n 0 lines (List.replicate n [])).getD i []).length
          = lines.length / n + (if i < lines.length % n then 1 else 0) ∧
      ∀ j, ((distribute n 0 lines (List.replicate n [])).getD i [])[j]? = lines[j * n + i]? := by
  refine ⟨by simp [distribute_length], ?_⟩
  induction lines using List.reverseRecOn with
  | nil =>
    intro i hi
    simp [distribute, List.getD_eq_getElem?_getD, hi]
  | append_singleton ls x ih =>
    intro i hi
    have hlen : (distribute n 0 ls (List.replicate n [])).length = n := by
      simp [distribute_length]
    have hk : ls.length % n < n := Nat.mod_lt _ hn
    have hdm := Nat.div_add_mod ls.length n
    obtain ⟨hA, hB⟩ := succ_div_mod ls.length n hn
    rw [distribute_snoc, Nat.zero_add, getD_appendAt _ _ _ _ (by rw [hlen]; exact hk)]
    by_cases hik : i = ls.length % n
    · subst hik
      obtain ⟨hl, hg⟩ := ih _ hk
      simp only [if_true, lt_irrefl, if_false, Nat.add_zero] at hl ⊢
      constructor
      · simp only [List.length_append, List.length_singleton, hl]
        rcases Nat.lt_or_ge (ls.length % n + 1) n with h1 | h1
        · obtain ⟨e1, e2⟩ := hA h1
          simp [e1, e2]
        · obtain ⟨e1, e2⟩ := hB (by omega)
          simp [e1, e2, Nat.pos_of_ne_zero, hn]
      · intro j
        rcases Nat.lt_trichotomy j (ls.length / n) with h1 | h1 | h1
        · have h2 : j * n + ls.length % n < ls.length := by
            have : (j + 1) * n ≤ ls.length / n * n := Nat.mul_le_mul_right n h1
            nlinarith
          rw [List.getElem?_append_left (by rw [hl]; exact h1), hg j,
            List.getElem?_append_left h2]
        · have h2 : j * n + ls.length % n = ls.length := by
            rw [h1]; linarith
          rw [h2, List.getElem?_append_right (by rw [hl]; omega),
            List.getElem?_append_right (le_refl _), hl, h1, Nat.sub_self, Nat.sub_self]
        · have h2 : ls.length < j * n + ls.length % n := by
            have : (ls.length / n + 1) * n ≤ j * n := Nat.mul_le_mul_right n h1
            nlinarith
          rw [List.getElem?_eq_none (by rw [List.length_append, hl]; simp; omega),
            List.getElem?_eq_none (by simp; omega)]
    · obtain ⟨hl, hg⟩ := ih i hi
      simp only [hik, if_false]
      constructor
      · rw [hl, List.length_append, List.length_singleton]
        rcases Nat.lt_or_ge (ls.length % n + 1) n with h1 | h1
        · obtain ⟨e1, e2⟩ := hA h1
          rw [e1, e2]
          split_ifs <;> omega
        · obtain ⟨e1, e2⟩ := hB (by omega)
          rw [e1, e2]
          have h3 : i < ls.length % n := by omega
          simp [h3]
      · intro j
        rw [hg j]
        have hne : j * n + i ≠ ls.length := by
          intro h
          apply hik
          rw [← h, Nat.mul_add_mod_of_lt hi]
        rcases Nat.lt_or_ge (j * n + i) ls.length with h1 | h1
        · rw [List.getElem?_append_left h1]
        · rw [List.getElem?_eq_none h1, List.getElem?_eq_none (by simp; omega)]

theorem flatten_appendAt (chunks : List (List Str)) (k : Nat) (x : Str) (hk : k < chunks.length) :
    (appendAt chunks k x).flatten.Perm (x :: chunks.flatten) := by
  induction chunks generalizing k with
  | nil => simp at hk
  | cons c cs ih =>
    cases k with
    | zero =>
      simp only [appendAt, List.getD_cons_zero, List.set_cons_zero, List.flatten_cons,
        List.append_assoc, List.singleton_append]
      exact (List.perm_middle).trans (List.Perm.refl _)
    | succ k =>
      have hk2 : k < cs.length := by simpa using hk
      have := ih k hk2
      simp only [appendAt, List.getD_cons_succ, List.set_cons_succ, List.flatten_cons] at this ⊢
      exact (List.Perm.append_left c this).trans List.perm_middle

theorem filterMap_getElem?_range (l : List Str) :
    (List.range l.length).filterMap (fun idx => l[idx]?) = l := by
  induction l using List.reverseRecOn with
  | nil => rfl
  | append_singleton ls x ih =>
    rw [List.length_append, List.length_singleton, List.range_succ, List.filterMap_append]
    have h1 : (List.range ls.length).filterMap (fun idx => (ls ++ [x])[idx]?)
        = (List.range ls.length).filterMap (fun idx => ls[idx]?) := by
      apply List.filterMap_congr
      intro a ha
      rw [List.getElem?_append_left (List.mem_range.1 ha)]
    rw [h1, ih]
    simp

theorem splitLinesEvenly_eq (lines : List Str) (N : Int) (h1 : 1 ≤ N) :
    splitLinesEvenly lines N
      = some (distribute N.toNat 0 lines (List.replicate N.toNat [])) := by
  unfold splitLinesEvenly
  rw [if_neg (by omega), if_neg (by intro h; omega)]

theorem distribute_perm (n : Nat) (hn : 0 < n) (lines : List Str) :
    (distribute n 0 lines (List.replicate n [])).flatten.Perm lines := by
  induction lines using List.reverseRecOn with
  | nil => simp [distribute]
  | append_singleton ls x ih =>
    rw [distribute_snoc]
    refine (flatten_appendAt _ _ _ ?_).trans ?_
    · rw [distribute_length, List.length_replicate]; exact Nat.mod_lt _ hn
    · exact (List.Perm.cons x ih).trans (List.perm_append_singleton x ls).symm

theorem interleave_distribute (n : Nat) (hn : 0 < n) (lines : List Str) :
    interleave (distribute n 0 lines (List.replicate n [])) lines.length = lines := by
  obtain ⟨hlen, hspec⟩ := distribute_spec n hn lines
  unfold interleave
  rw [hlen]
  have h : ∀ idx, ((distribute n 0 lines (List.replicate n [])).getD (idx % n) [])[idx / n]?
      = lines[idx]? := by
    intro idx
    rw [(hspec (idx % n) (Nat.mod_lt _ hn)).2 (idx / n)]
    congr 1
    have := Nat.div_add_mod idx n
    linarith [Nat.mul_comm n (idx / n)]
  simp only [h]
  exact filterMap_getElem?_range lines

theorem ceil_div (L n : Nat) (hn : 0 < n) (h : 0 < L % n) : (L + n - 1) / n = L / n + 1 := by
  have h0 := Nat.div_add_mod L n
  have hlt := Nat.mod_lt L hn
  refine ((Nat.div_mod_unique (c := L % n - 1) hn).2 ⟨?_, by omega⟩).1
  rw [Nat.mul_add]
  omega

/-- C3. For every sequence of lines and every N in 1..50, `splitLinesEvenly`
returns exactly N partitions; element `j` of partition `i` is the line at index
`j * N + i` (and nothing beyond the input); each input index lies at exactly one
place `(i, j)`, namely `(idx % N, idx / N)`; the partitions together hold the
input lines, each once; and reading them back by `idx mod N` gives the input. -/
theorem splitLinesEvenly_round_robin (lines : List Str) (N : Int) (h1 : 1 ≤ N) (h50 : N ≤ 50) :
    ∃ chunks, splitLinesEvenly lines N = some chunks ∧
      (chunks.length : Int) = N ∧
      (∀ i j, i < chunks.length →
        (chunks.getD i [])[j]? = lines[j * chunks.length + i]?) ∧
      (∀ idx i j, i < chunks.length →
        (j * chunks.length + i = idx ↔ i = idx % chunks.length ∧ j = idx / chunks.length)) ∧
      chunks.flatten.Perm lines ∧
      interleave chunks lines.length = lines := by
  have hn : 0 < N.toNat := by omega
  obtain ⟨hlen, hspec⟩ := distribute_spec N.toNat hn lines
  refine ⟨_, splitLinesEvenly_eq lines N h1, ?_, ?_, ?_, distribute_perm _ hn lines,
    interleave_distribute _ hn lines⟩
  · rw [hlen]; omega
  · intro i j hi
    rw [hlen] at hi ⊢
    exact (hspec i hi).2 j
  · intro idx i j hi
    rw [hlen] at hi ⊢
    constructor
    · intro h
      subst h
      refine ⟨(Nat.mul_add_mod_of_lt hi).symm, ?_⟩
      rw [Nat.add_comm, Nat.add_mul_div_right _ _ hn, Nat.div_eq_of_lt hi, Nat.zero_add]
    · rintro ⟨rfl, rfl⟩
      have := Nat.div_add_mod idx N.toNat
      linarith [Nat.mul_comm N.toNat (idx / N.toNat)]

/-- C4. For every N in 1..50 and every number of lines L, `splitLinesEvenly`
returns N partitions, each of size `L / N` (floor) or `(L + N - 1) / N`
(ceiling); two sizes differ by at most one; and with no line at all the N
partitions are all empty. -/
theorem splitLinesEvenly_balanced (lines : List Str) (N : Int) (h1 : 1 ≤ N) (h50 : N ≤ 50) :
    ∃ chunks, splitLinesEvenly lines N = some chunks ∧
      (chunks.length : Int) = N ∧
      (∀ c ∈ chunks, c.length = lines.length / N.toNat ∨
        c.length = (lines.length + N.toNat - 1) / N.toNat) ∧
      (∀ c ∈ chunks, ∀ d ∈ chunks, c.length ≤ d.length + 1) ∧
      (lines = [] → ∀ c ∈ chunks, c = []) := by
  have hn : 0 < N.toNat := by omega
  obtain ⟨hlen, hspec⟩ := distribute_spec N.toNat hn lines
  have hsz : ∀ c ∈ distribute N.toNat 0 lines (List.replicate N.toNat []),
      ∃ i, i < N.toNat ∧ c.length
        = lines.length / N.toNat + (if i < lines.length % N.toNat then 1 else 0) := by
    intro c hc
    obtain ⟨i, hi, rfl⟩ := List.getElem_of_mem hc
    refine ⟨i, by rw [← hlen]; exact hi, ?_⟩
    have := (hspec i (by rw [← hlen]; exact hi)).1
    rwa [List.getD_eq_getElem _ _ hi] at this
  refine ⟨_, splitLinesEvenly_eq lines N h1, by rw [hlen]; omega, ?_, ?_, ?_⟩
  · intro c hc
    obtain ⟨i, hi, hl⟩ := hsz c hc
    rw [hl]
    by_cases h : i < lines.length % N.toNat
    · right
      rw [if_pos h, ceil_div _ _ hn (by omega)]
    · left
      rw [if_neg h, Nat.add_zero]
  · intro c hc d hd
    obtain ⟨i, _, hl⟩ := hsz c hc
    obtain ⟨k, _, hl2⟩ := hsz d hd
    rw [hl, hl2]
    split_ifs <;> omega
  · intro hnil c hc
    obtain ⟨i, _, hl⟩ := hsz c hc
    subst hnil
    simp at hl
    exact hl

theorem splitLinesEvenly_round_robin_witness :
    (1 : Int) ≤ 2 ∧ (2 : Int) ≤ 50 ∧
    ∃ chunks, splitLinesEvenly ["a".toList, "b".toList, "c".toList] 2 = some chunks ∧
      (chunks.length : Int) = 2 ∧
      (∀ i j, i < chunks.length →
        (chunks.getD i [])[j]? = ["a".toList, "b".toList, "c".toList][j * chunks.length + i]?) ∧
      (∀ idx i j, i < chunks.length →
        (j * chunks.length + i = idx ↔ i = idx % chunks.length ∧ j = idx / chunks.length)) ∧
      chunks.flatten.Perm ["a".toList, "b".toList, "c".toList] ∧
      interleave chunks ["a".toList, "b".toList, "c".toList].length
        = ["a".toList, "b".toList, "c".toList] :=
  ⟨by decide, by decide,
    splitLinesEvenly_round_robin ["a".toList, "b".toList, "c".toList] 2 (by decide) (by decide)⟩

theorem splitLinesEvenly_balanced_witness :
    (1 : Int) ≤ 3 ∧ (3 : Int) ≤ 50 ∧
    ∃ chunks, splitLinesEvenly ["a".toList, "b".toList, "c".toList, "d".toList] 3 = some chunks ∧
      (chunks.length : Int) = 3 ∧
      (∀ c ∈ chunks, c.length = ["a".toList, "b".toList, "c".toList, "d".toList].length / (3 : Int).toNat ∨
        c.length = (["a".toList, "b".toList, "c".toList, "d".toList].length + (3 : Int).toNat - 1)
          / (3 : Int).toNat) ∧
      (∀ c ∈ chunks, ∀ d ∈ chunks, c.length ≤ d.length + 1) ∧
      (["a".toList, "b".toList, "c".toList, "d".toList] = [] → ∀ c ∈ chunks, c = []) :=
  ⟨by decide, by decide,
    splitLinesEvenly_balanced ["a".toList, "b".toList, "c".toList, "d".toList] 3
      (by decide) (by decide)⟩

/-! ## Go ints and maps: proofs -/

theorem wrap64_of_range (x : Int) (h1 : -9223372036854775808 ≤ x) (h2 : x < 9223372036854775808) :
    wrap64 x = x := by
  unfold wrap64; omega

theorem wrap64_add_wrap64_left (a b : Int) : wrap64 (wrap64 a + b) = wrap64 (a + b) := by
  unfold wrap64; omega

namespace GoMap

theorem lookup_nil (w : Str) : lookup [] w = none := rfl

theorem lookup_cons (e : Str × Int) (es : GoMap) (w : Str) :
    lookup (e :: es) w = if e.1 = w then some e.2 else lookup es w := by
  unfold lookup
  by_cases h : e.1 = w
  · simp [List.find?_cons, h]
  · simp [List.find?_cons, h]

theorem lookup_set (m : GoMap) (w : Str) (v : Int) (w2 : Str) :
    lookup (set m w v) w2 = if w = w2 then some v else lookup m w2 := by
  induction m with
  | nil => simp [set, lookup_cons, lookup_nil]
  | cons e es ih =>
    by_cases h : e.1 = w
    · simp only [set, h, beq_self_eq_true, if_true, lookup_cons]
      split_ifs <;> rfl
    · simp only [set, beq_iff_eq, h, if_false, lookup_cons, ih]
      by_cases h2 : e.1 = w2
      · have : w ≠ w2 := by rintro rfl; exact h h2
        simp [h2, this]
      · simp [h2]

theorem get_set (m : GoMap) (w : Str) (v : Int) (w2 : Str) :
    get (set m w v) w2 = if w = w2 then v else get m w2 := by
  unfold get
  rw [lookup_set]
  split_ifs <;> rfl

theorem lookup_eq_none_iff (m : GoMap) (w : Str) : lookup m w = none ↔ w ∉ keys m := by
  induction m with
  | nil => simp [lookup_nil, keys]
  | cons e es ih =>
    rw [lookup_cons]
    by_cases h : e.1 = w
    · simp [h, keys]
    · simp only [h, if_false, ih, keys, List.map_cons, List.mem_cons, not_or]
      exact ⟨fun h2 => ⟨fun h3 => h h3.symm, h2⟩, fun h2 => h2.2⟩

theorem mem_keys_iff (m : GoMap) (w : Str) : w ∈ keys m ↔ ∃ v, lookup m w = some v := by
  rw [← not_iff_not, ← lookup_eq_none_iff]
  cases lookup m w <;> simp

theorem keys_set (m : GoMap) (w : Str) (v : Int) :
    keys (set m w v) = if w ∈ keys m then keys m else keys m ++ [w] := by
  induction m with
  | nil => simp [set, keys]
  | cons e es ih =>
    by_cases h : e.1 = w
    · simp [set, h, keys]
    · have h2 : ¬ w = e.1 := fun h3 => h h3.symm
      simp only [keys] at ih
      simp only [set, beq_iff_eq, h, if_false, keys, List.map_cons, List.mem_cons, h2, false_or,
        ih]
      split_ifs <;> simp

theorem WF_set (m : GoMap) (w : Str) (v : Int) (h : WF m) : WF (set m w v) := by
  unfold WF at *
  rw [keys_set]
  split_ifs with h1
  · exact h
  · exact List.Nodup.append h (List.nodup_singleton w) (by simpa using h1)

end GoMap

/-! ## Word counter: proofs -/

theorem isSpace_of_isAZ (c : Char) (h : isAZ c = true) : isSpace c = false := by
  simp only [isAZ, Bool.and_eq_true, decide_eq_true_eq] at h
  obtain ⟨h1, h2⟩ := h
  have h1n : 97 ≤ c.toNat := h1
  have h2n : c.toNat ≤ 122 := h2
  simp only [isSpace]
  rw [if_pos (by omega)]
  simp
  omega

theorem fieldsAux_replaceAux (s : Str) :
    ∀ (cur : Str) (inRun : Bool), (inRun = true → cur = []) →
      fieldsAux cur (replaceAux inRun s)
        = (List.splitOnP.go (fun c => !isAZ c) s cur).filter (fun r => !r.isEmpty) := by
  induction s with
  | nil =>
    intro cur inRun _
    cases cur <;> simp [replaceAux, fieldsAux, List.splitOnP.go]
  | cons c cs ih =>
    intro cur inRun h
    by_cases hc : isAZ c = true
    · simp only [replaceAux, hc, if_true, fieldsAux, isSpace_of_isAZ c hc, List.splitOnP.go,
        Bool.not_true, Bool.false_eq_true, if_false]
      exact ih (c :: cur) false (by simp)
    · simp only [Bool.not_eq_true] at hc
      cases inRun with
      | true =>
        have hcur := h rfl
        subst hcur
        simp only [replaceAux, hc, Bool.false_eq_true, if_false, if_true, List.splitOnP.go,
          Bool.not_false, List.reverse_nil, List.filter_cons, List.isEmpty_nil]
        simpa using ih [] true (by simp)
      | false =>
        have hsp : isSpace ' ' = true := by decide
        simp only [replaceAux, hc, Bool.false_eq_true, if_false, fieldsAux, hsp, if_true,
          List.splitOnP.go, Bool.not_false, List.filter_cons]
        cases cur with
        | nil => simpa using ih [] true (by simp)
        | cons a as => simpa using ih [] true (by simp)

theorem fields_replace_eq_letterRuns (s : Str) :
    fields (replaceAllNonLetters s) = letterRuns s :=
  fieldsAux_replaceAux s [] false (by simp)

theorem splitOnP_go_append_sep (p : Char → Bool) (a b : Str) (x : Char) (hx : p x = true) :
    ∀ acc, List.splitOnP.go p (a ++ x :: b) acc
      = List.splitOnP.go p a acc ++ List.splitOnP.go p b [] := by
  induction a with
  | nil => intro acc; simp [List.splitOnP.go, hx]
  | cons c cs ih =>
    intro acc
    by_cases hc : p c = true
    · simp [List.splitOnP.go, hc, ih]
    · simp [List.splitOnP.go, hc, ih]

theorem splitOnP_go_all_false (p : Char → Bool) (r : Str) (hr : ∀ c ∈ r, p c = false) :
    ∀ acc, List.splitOnP.go p r acc = [acc.reverse ++ r] := by
  induction r with
  | nil => intro acc; simp [List.splitOnP.go]
  | cons c cs ih =>
    intro acc
    have hc : p c = false := hr c (List.mem_cons_self _ _)
    simp [List.splitOnP.go, hc, ih (fun d hd => hr d (List.mem_cons_of_mem _ hd))]

theorem splitOnP_go_mem (p : Char → Bool) (s : Str) :
    ∀ acc, (∀ c ∈ acc, p c = false) →
      ∀ r ∈ List.splitOnP.go p s acc, ∀ c ∈ r, p c = false := by
  induction s with
  | nil =>
    intro acc hacc r hr c hc
    simp only [List.splitOnP.go, List.mem_singleton] at hr
    subst hr
    exact hacc c (List.mem_reverse.1 hc)
  | cons x xs ih =>
    intro acc hacc r hr c hc
    by_cases hx : p x = true
    · simp only [List.splitOnP.go, hx, if_true, List.mem_cons] at hr
      rcases hr with rfl | hr
      · exact hacc c (List.mem_reverse.1 hc)
      · exact ih [] (by simp) r hr c hc
    · simp only [List.splitOnP.go, hx, Bool.false_eq_true, if_false] at hr
      refine ih (x :: acc) ?_ r hr c hc
      intro d hd
      rcases List.mem_cons.1 hd with rfl | hd
      · simpa using hx
      · exact hacc d hd

theorem splitOnP_go_flatten_length (p : Char → Bool) (s : Str) :
    ∀ acc, (List.splitOnP.go p s acc).flatten.length ≤ s.length + acc.length := by
  induction s with
  | nil => intro acc; simp [List.splitOnP.go]
  | cons x xs ih =>
    intro acc
    by_cases hx : p x = true
    · have := ih []
      simp only [List.splitOnP.go, hx, if_true, List.flatten_cons, List.length_append,
        List.length_reverse, List.length_cons, List.length_nil] at this ⊢
      omega
    · have := ih (x :: acc)
      simp only [List.splitOnP.go, hx, Bool.false_eq_true, if_false, List.length_cons] at this ⊢
      omega

theorem filter_nonempty_length_le (ls : List Str) :
    (ls.filter (fun r => !r.isEmpty)).length ≤ ls.flatten.length := by
  induction ls with
  | nil => simp
  | cons l ls ih =>
    cases l with
    | nil => simpa using ih
    | cons a as =>
      simp only [List.filter_cons, List.isEmpty_cons, Bool.not_false, if_true, List.length_cons,
        List.flatten_cons, List.length_append]
      omega

theorem letterRuns_length_le (s : Str) : (letterRuns s).length ≤ s.length := by
  unfold letterRuns List.splitOnP
  exact (filter_nonempty_length_le _).trans (by simpa using splitOnP_go_flatten_length _ s [])

theorem letterRuns_nil : letterRuns [] = [] := by decide

theorem letterRuns_append_sep (a b : Str) (x : Char) (hx : isAZ x = false) :
    letterRuns (a ++ x :: b) = letterRuns a ++ letterRuns b := by
  unfold letterRuns List.splitOnP
  rw [splitOnP_go_append_sep _ a b x (by simp [hx]), List.filter_append]

theorem letterRuns_mem (s r : Str) (h : r ∈ letterRuns s) :
    r ≠ [] ∧ ∀ c ∈ r, isAZ c = true := by
  unfold letterRuns List.splitOnP at h
  obtain ⟨h1, h2⟩ := List.mem_filter.1 h
  refine ⟨by intro h; simp [h] at h2, ?_⟩
  intro c hc
  simpa using splitOnP_go_mem _ s [] (by simp) r h1 c hc

theorem letterRuns_no_letter (s : Str) (hs : ∀ c ∈ s, isAZ c = false) : letterRuns s = [] := by
  induction s with
  | nil => exact letterRuns_nil
  | cons x xs ih =>
    have h := letterRuns_append_sep [] xs x (hs x (List.mem_cons_self _ _))
    rw [List.nil_append, letterRuns_nil, List.nil_append] at h
    rw [h]
    exact ih (fun c hc => hs c (List.mem_cons_of_mem _ hc))

theorem letterRuns_of_run (r : Str) (hne : r ≠ []) (hr : ∀ c ∈ r, isAZ c = true) :
    letterRuns r = [r] := by
  unfold letterRuns List.splitOnP
  rw [splitOnP_go_all_false _ r (by intro c hc; simp [hr c hc])]
  cases r with
  | nil => exact absurd rfl hne
  | cons a as => simp

/-- The runs of `letterRuns` are the maximal ones: a non-empty stretch of
`[a-z]` runes that is neither preceded nor followed by an `[a-z]` rune is one
run, between the runs of what precedes it and the runs of what follows. -/
theorem letterRuns_maximal_run (pre r post : Str) (hne : r ≠ [])
    (hr : ∀ c ∈ r, isAZ c = true)
    (hpre : ∀ c ∈ pre.getLast?, isAZ c = false)
    (hpost : ∀ c ∈ post.head?, isAZ c = false) :
    letterRuns (pre ++ r ++ post) = letterRuns pre ++ [r] ++ letterRuns post := by
  have hmid : letterRuns (r ++ post) = [r] ++ letterRuns post := by
    cases post with
    | nil => simp [letterRuns_nil, letterRuns_of_run r hne hr]
    | cons y ys =>
      have hy : isAZ y = false := hpost y (by simp)
      rw [letterRuns_append_sep r ys y hy, letterRuns_of_run r hne hr]
      have := letterRuns_append_sep [] ys y hy
      simp only [List.nil_append, letterRuns_nil] at this
      rw [this]
  rcases List.eq_nil_or_concat pre with rfl | ⟨pre0, x, rfl⟩
  · simp [letterRuns_nil, hmid]
  · have hx : isAZ x = false := hpre x (by simp)
    have h1 := letterRuns_append_sep pre0 (r ++ post) x hx
    have h2 := letterRuns_append_sep pre0 [] x hx
    simp only [letterRuns_nil, List.append_nil] at h2
    rw [List.concat_eq_append, h2, List.append_assoc, List.append_assoc, List.singleton_append,
      h1, hmid]
    simp

/-! ## Tally and merge: proofs -/

theorem tally_cons (m : GoMap) (x : Str) (xs : List Str) :
    tally m (x :: xs) = tally (m.set x (intAdd (m.get x) 1)) xs := rfl

theorem WF_tally (ws : List Str) : ∀ m : GoMap, m.WF → (tally m ws).WF := by
  induction ws with
  | nil => intro m h; exact h
  | cons x xs ih => intro m h; exact ih _ (GoMap.WF_set m x _ h)

theorem lookup_tally (w : Str) (ws : List Str) :
    ∀ m : GoMap, (tally m ws).lookup w
      = if ws.count w = 0 then m.lookup w else some (wrap64 (m.get w + (ws.count w : Int))) := by
  induction ws with
  | nil => intro m; simp [tally]
  | cons x xs ih =>
    intro m
    rw [tally_cons, ih, GoMap.lookup_set, GoMap.get_set]
    by_cases hx : x = w
    · subst hx
      simp only [if_true, List.count_cons_self, Nat.add_one_ne_zero, if_false, intAdd]
      by_cases hc : List.count x xs = 0
      · simp [hc]
      · simp only [hc, if_false, Nat.cast_add, Nat.cast_one, wrap64_add_wrap64_left]
        congr 2
        ring
    · have hx2 : (x == w) = false := by simpa using hx
      simp only [hx, if_false, List.count_cons, hx2, Bool.false_eq_true, Nat.add_zero]

theorem lookup_tally_nil (w : Str) (ws : List Str) (h : ws.length < 2 ^ 63) :
    (tally [] ws).lookup w = if ws.count w = 0 then none else some (ws.count w : Int) := by
  rw [lookup_tally]
  have h1 : ws.count w ≤ ws.length := List.count_le_length _ _
  have h2 : ((ws.count w : Nat) : Int) < 9223372036854775808 := by
    have : ws.count w < 2 ^ 63 := lt_of_le_of_lt h1 h
    norm_num at this
    exact_mod_cast this
  simp only [GoMap.get, GoMap.lookup_nil, Option.getD_none, zero_add]
  rw [wrap64_of_range _ (by omega) h2]

theorem mergeCounts_cons (m : GoMap) (e : Str × Int) (es : GoMap) :
    mergeCounts m (e :: es) = mergeCounts (m.set e.1 (intAdd (m.get e.1) e.2)) es := rfl

theorem WF_mergeCounts (cs : GoMap) : ∀ m : GoMap, m.WF → (mergeCounts m cs).WF := by
  induction cs with
  | nil => intro m h; exact h
  | cons e es ih => intro m h; exact ih _ (GoMap.WF_set m e.1 _ h)

theorem lookup_mergeCounts (w : Str) (cs : GoMap) (hcs : cs.WF) :
    ∀ m : GoMap, (mergeCounts m cs).lookup w
      = match cs.lookup w with
        | none => m.lookup w
        | some c => some (wrap64 (m.get w + c)) := by
  induction cs with
  | nil => intro m; simp [mergeCounts, GoMap.lookup_nil]
  | cons e es ih =>
    intro m
    have hwf : GoMap.WF es := by
      unfold GoMap.WF GoMap.keys at hcs ⊢
      exact (List.nodup_cons.1 hcs).2
    have hnot : e.1 ∉ GoMap.keys es := by
      unfold GoMap.WF GoMap.keys at hcs
      exact (List.nodup_cons.1 hcs).1
    rw [mergeCounts_cons, ih hwf, GoMap.lookup_cons, GoMap.lookup_set, GoMap.get_set]
    by_cases he : e.1 = w
    · subst he
      rw [(GoMap.lookup_eq_none_iff es e.1).2 hnot]
      simp [intAdd]
    · simp only [he, if_false]

theorem wrap64_wrap64 (x : Int) : wrap64 (wrap64 x) = wrap64 x := by
  unfold wrap64; omega

theorem get_mergeCounts (w : Str) (cs : GoMap) (hcs : cs.WF) (m : GoMap) :
    (mergeCounts m cs).get w
      = match cs.lookup w with
        | none => m.get w
        | some c => wrap64 (m.get w + c) := by
  unfold GoMap.get
  rw [lookup_mergeCounts w cs hcs m]
  cases cs.lookup w <;> rfl

theorem wrap64_get_mergeCounts (w : Str) (cs : GoMap) (hcs : cs.WF) (m : GoMap) :
    wrap64 ((mergeCounts m cs).get w) = wrap64 (m.get w + cs.get w) := by
  rw [get_mergeCounts w cs hcs m]
  unfold GoMap.get
  cases cs.lookup w with
  | none => simp
  | some c => simp [wrap64_wrap64]

theorem InRange_mergeCounts (cs : GoMap) (hcs : cs.WF) (m : GoMap) (hm : m.InRange) :
    (mergeCounts m cs).InRange := by
  intro w
  rw [get_mergeCounts w cs hcs m]
  cases cs.lookup w with
  | none => exact hm w
  | some c => exact wrap64_wrap64 _

theorem mem_keys_mergeCounts (w : Str) (cs : GoMap) (hcs : cs.WF) (m : GoMap) :
    w ∈ (mergeCounts m cs).keys ↔ w ∈ m.keys ∨ w ∈ cs.keys := by
  rw [GoMap.mem_keys_iff, GoMap.mem_keys_iff, GoMap.mem_keys_iff, lookup_mergeCounts w cs hcs m]
  cases cs.lookup w with
  | none => simp
  | some c => simp

theorem foldl_mergeStep_spec (w : Str) (ps : List Payload) (hps : ∀ p ∈ ps, p.counts.WF) :
    ∀ acc : GoMap × Int,
      (w ∈ (ps.foldl mergeStep acc).1.keys ↔ w ∈ acc.1.keys ∨ ∃ p ∈ ps, w ∈ p.counts.keys) ∧
      wrap64 ((ps.foldl mergeStep acc).1.get w)
        = wrap64 (acc.1.get w + (ps.map (fun p => p.counts.get w)).sum) ∧
      wrap64 (ps.foldl mergeStep acc).2 = wrap64 (acc.2 + (ps.map (fun p => p.total)).sum) ∧
      (acc.1.InRange → (ps.foldl mergeStep acc).1.InRange) ∧
      (wrap64 acc.2 = acc.2 → wrap64 (ps.foldl mergeStep acc).2 = (ps.foldl mergeStep acc).2) ∧
      (acc.1.WF → (ps.foldl mergeStep acc).1.WF) := by
  induction ps with
  | nil => intro acc; simp
  | cons p ps ih =>
    intro acc
    have hp : p.counts.WF := hps p (List.mem_cons_self _ _)
    obtain ⟨h1, h2, h3, h4, h5, h6⟩ :=
      ih (fun q hq => hps q (List.mem_cons_of_mem _ hq)) (mergeStep acc p)
    simp only [List.foldl_cons, List.map_cons, List.sum_cons]
    refine ⟨?_, ?_, ?_, ?_, ?_, ?_⟩
    · rw [h1]
      simp only [mergeStep, mem_keys_mergeCounts w p.counts hp, List.mem_cons, exists_eq_or_imp,
        or_assoc]
    · rw [h2]
      simp only [mergeStep]
      rw [← wrap64_add_wrap64_left, wrap64_get_mergeCounts w p.counts hp, wrap64_add_wrap64_left,
        add_assoc]
    · rw [h3]
      simp only [mergeStep, intAdd]
      rw [wrap64_add_wrap64_left, add_assoc]
    · intro h
      exact h4 (InRange_mergeCounts p.counts hp acc.1 h)
    · intro _
      exact h5 (by simp only [mergeStep, intAdd]; exact wrap64_wrap64 _)
    · intro h
      exact h6 (WF_mergeCounts p.counts acc.1 h)

/-- Merge: keys are the union, values and total the wrapped sums. -/
theorem mergeAll_spec (ps : List Payload) (hps : ∀ p ∈ ps, p.counts.WF) (w : Str) :
    (w ∈ (mergeAll ps).1.keys ↔ ∃ p ∈ ps, w ∈ p.counts.keys) ∧
    (mergeAll ps).1.get w = wrap64 ((ps.map (fun p => p.counts.get w)).sum) ∧
    (mergeAll ps).2 = wrap64 ((ps.map (fun p => p.total)).sum) ∧
    (mergeAll ps).1.WF := by
  obtain ⟨h1, h2, h3, h4, h5, h6⟩ := foldl_mergeStep_spec w ps hps ([], 0)
  have hr : GoMap.InRange [] := fun _ => show wrap64 0 = 0 by decide
  refine ⟨?_, ?_, ?_, ?_⟩
  · simpa [GoMap.keys] using h1
  · have := h4 hr w
    unfold mergeAll
    rw [← this, h2]
    simp [GoMap.get, GoMap.lookup_nil]
  · have := h5 (by decide)
    unfold mergeAll
    rw [← this, h3]
    simp
  · exact h6 (by simp [GoMap.WF, GoMap.keys])

/-! ## Word counter and pipeline: main results -/

theorem tokens_eq_letterRuns (tbl : Char → Char) (s : Str) :
    tokens tbl s = letterRuns (toLower tbl s) :=
  fields_replace_eq_letterRuns _

theorem toLower_append (tbl : Char → Char) (a b : Str) :
    toLower tbl (a ++ b) = toLower tbl a ++ toLower tbl b := by
  simp [toLower]

theorem toLower_newline (tbl : Char → Char) : toLower tbl ['\n'] = ['\n'] := by
  simp [toLower, toLowerRune]

theorem tokens_nil (tbl : Char → Char) : tokens tbl [] = [] := by
  rw [tokens_eq_letterRuns]; rfl

theorem tokens_append_newline (tbl : Char → Char) (a b : Str) :
    tokens tbl (a ++ '\n' :: b) = tokens tbl a ++ tokens tbl b := by
  rw [tokens_eq_letterRuns, tokens_eq_letterRuns, tokens_eq_letterRuns,
    show a ++ '\n' :: b = a ++ (['\n'] ++ b) from rfl, toLower_append, toLower_append,
    toLower_newline]
  exact letterRuns_append_sep _ _ '\n' (by decide)

theorem join_cons_cons (a b : Str) (t : List Str) (sep : Str) :
    join (a :: b :: t) sep = a ++ sep ++ join (b :: t) sep := by
  simp [join, List.intercalate, List.intersperse]

theorem tokens_join (tbl : Char → Char) (ls : List Str) :
    tokens tbl (join ls ['\n']) = ls.flatMap (tokens tbl) := by
  induction ls with
  | nil => exact tokens_nil tbl
  | cons a t ih =>
    cases t with
    | nil => simp [join, List.intercalate, List.intersperse]
    | cons b t =>
      rw [join_cons_cons, List.append_assoc, List.singleton_append, tokens_append_newline, ih]
      simp

theorem tokens_formatChunkContent (tbl : Char → Char) (ls : List Str) :
    tokens tbl (formatChunkContent ls) = ls.flatMap (tokens tbl) := by
  unfold formatChunkContent
  simp only []
  split_ifs
  · have := tokens_append_newline tbl (join ls ['\n']) []
    rw [this, tokens_nil, List.append_nil, tokens_join]
  · exact tokens_join tbl ls

theorem tokens_length_le (tbl : Char → Char) (s : Str) : (tokens tbl s).length ≤ s.length := by
  rw [tokens_eq_letterRuns]
  exact (letterRuns_length_le _).trans (by simp [toLower])

theorem toLower_ascii (tbl : Char → Char) (s : Str) (h : ∀ c ∈ s, c.toNat ≤ 0x7F) :
    toLower tbl s = toLower id s := by
  unfold toLower
  apply List.map_congr_left
  intro c hc
  simp [toLowerRune, h c hc]

theorem countWords_ascii (tbl : Char → Char) (s : Str) (h : ∀ c ∈ s, c.toNat ≤ 0x7F) :
    countWords tbl s = countWords id s := by
  simp only [countWords, tokens, toLower_ascii tbl s h]

theorem countWords_hello (tbl : Char → Char) :
    countWords tbl "Hello, WORLD! hello".toList
      = ([("hello".toList, 2), ("world".toList, 1)], 3) := by
  rw [countWords_ascii tbl _ (by decide)]
  decide

/-- C2. For every text (a Go string has fewer than 2^63 bytes), `countWords`
returns the mapping that sends each maximal run of `[a-z]` runes of the
lowercased text to the number of times that run occurs (and holds no other
key), and a total equal to the number of such runs; every key is a non-empty
string of `[a-z]` runes, each key occurs once, and `"Hello, WORLD! hello"`
gives hello = 2, world = 1, total 3, with 2 unique words. -/
theorem countWords_spec (tbl : Char → Char) (text : Str) (hlen : text.length < 2 ^ 63) :
    (∀ w, (countWords tbl text).1.lookup w
        = if (letterRuns (toLower tbl text)).count w = 0 then none
          else some ((letterRuns (toLower tbl text)).count w : Int)) ∧
    (countWords tbl text).2 = ((letterRuns (toLower tbl text)).length : Int) ∧
    (∀ w ∈ (countWords tbl text).1.keys, w ≠ [] ∧ ∀ c ∈ w, isAZ c = true) ∧
    (countWords tbl text).1.WF ∧
    countWords tbl "Hello, WORLD! hello".toList
      = ([("hello".toList, 2), ("world".toList, 1)], 3) ∧
    (countWords tbl "Hello, WORLD! hello".toList).1.keys.length = 2 := by
  have htok : tokens tbl text = letterRuns (toLower tbl text) := tokens_eq_letterRuns tbl text
  have hl : (tokens tbl text).length < 2 ^ 63 := lt_of_le_of_lt (tokens_length_le tbl text) hlen
  have hlook : ∀ w, (countWords tbl text).1.lookup w
        = if (letterRuns (toLower tbl text)).count w = 0 then none
          else some ((letterRuns (toLower tbl text)).count w : Int) := by
    intro w
    have := lookup_tally_nil w (tokens tbl text) hl
    rw [htok] at this
    simpa [countWords, htok] using this
  refine ⟨hlook, by simp [countWords, htok], ?_, ?_, countWords_hello tbl,
    by rw [countWords_hello tbl]; decide⟩
  · intro w hw
    obtain ⟨v, hv⟩ := (GoMap.mem_keys_iff _ w).1 hw
    rw [hlook w] at hv
    by_cases hc : (letterRuns (toLower tbl text)).count w = 0
    · simp [hc] at hv
    · exact letterRuns_mem _ w (List.count_pos_iff.1 (Nat.pos_of_ne_zero hc))
  · exact WF_tally _ [] (by simp [GoMap.WF, GoMap.keys])

theorem countWords_spec_witness :
    "A b, a".toList.length < 2 ^ 63 ∧
    (∀ w, (countWords id "A b, a".toList).1.lookup w
        = if (letterRuns (toLower id "A b, a".toList)).count w = 0 then none
          else some ((letterRuns (toLower id "A b, a".toList)).count w : Int)) ∧
    (countWords id "A b, a".toList).2 = ((letterRuns (toLower id "A b, a".toList)).length : Int) ∧
    (∀ w ∈ (countWords id "A b, a".toList).1.keys, w ≠ [] ∧ ∀ c ∈ w, isAZ c = true) ∧
    (countWords id "A b, a".toList).1.WF ∧
    countWords id "Hello, WORLD! hello".toList
      = ([("hello".toList, 2), ("world".toList, 1)], 3) ∧
    (countWords id "Hello, WORLD! hello".toList).1.keys.length = 2 :=
  ⟨by decide, countWords_spec id "A b, a".toList (by decide)⟩

theorem flatten_flatMap (f : Str → List Str) (chunks : List (List Str)) :
    chunks.flatten.flatMap f = (chunks.map (fun c => c.flatMap f)).flatten := by
  induction chunks with
  | nil => rfl
  | cons c cs ih => simp [List.flatMap_append, ih]

theorem count_chunks (f : Str → List Str) (w : Str) (chunks : List (List Str))
    (lines : List Str) (h : chunks.flatten.Perm lines) :
    (chunks.map (fun c => (c.flatMap f).count w)).sum = (lines.flatMap f).count w := by
  have e : (lines.flatMap f).count w = (chunks.flatten.flatMap f).count w :=
    ((h.flatMap_right f).countP_eq _).symm
  rw [e, flatten_flatMap, List.count_flatten, List.map_map]
  rfl

theorem length_chunks (f : Str → List Str) (chunks : List (List Str))
    (lines : List Str) (h : chunks.flatten.Perm lines) :
    (chunks.map (fun c => (c.flatMap f).length)).sum = (lines.flatMap f).length := by
  rw [← (h.flatMap_right f).length_eq, flatten_flatMap, List.length_flatten, List.map_map]
  rfl

theorem GoMap.lookup_eq_get (m : GoMap) (w : Str) :
    m.lookup w = if w ∈ m.keys then some (m.get w) else none := by
  by_cases h : w ∈ m.keys
  · obtain ⟨v, hv⟩ := (GoMap.mem_keys_iff m w).1 h
    simp [h, GoMap.get, hv]
  · simp [h, (GoMap.lookup_eq_none_iff m w).2 h]

theorem le_sum_of_mem (l : List Nat) (a : Nat) (h : a ∈ l) : a ≤ l.sum :=
  List.single_le_sum (fun _ _ => Nat.zero_le _) a h

/-- Mapping the partitions of any rearrangement of the lines into partitions and
merging the results gives what counting the whole text gives. -/
theorem merge_mapChunk_eq_countWords (tbl : Char → Char) (lines : List Str)
    (chunks : List (List Str)) (hperm : chunks.flatten.Perm lines)
    (hlen : (join lines ['\n']).length < 2 ^ 63) :
    GoMap.Same (mergeAll (chunks.map (mapChunk tbl))).1
        (countWords tbl (join lines ['\n'])).1 ∧
      (mergeAll (chunks.map (mapChunk tbl))).2 = (countWords tbl (join lines ['\n'])).2 := by
  refine ⟨?_, ?_⟩
  all_goals
    have hW : tokens tbl (join lines ['\n']) = lines.flatMap (tokens tbl) := tokens_join tbl lines
    have hWlen : (lines.flatMap (tokens tbl)).length < 2 ^ 63 := by
      rw [← hW]; exact lt_of_le_of_lt (tokens_length_le tbl _) hlen
    have hT : ∀ c, tokens tbl (formatChunkContent c) = c.flatMap (tokens tbl) :=
      tokens_formatChunkContent tbl
    have hcl : ∀ c ∈ chunks, (c.flatMap (tokens tbl)).length < 2 ^ 63 := by
      intro c hc
      refine lt_of_le_of_lt ?_ hWlen
      rw [← length_chunks (tokens tbl) chunks lines hperm]
      exact le_sum_of_mem _ _ (List.mem_map.2 ⟨c, hc, rfl⟩)
    have hwf : ∀ p ∈ chunks.map (mapChunk tbl), p.counts.WF := by
      intro p hp
      obtain ⟨c, -, rfl⟩ := List.mem_map.1 hp
      exact WF_tally _ [] (by simp [GoMap.WF, GoMap.keys])
  · intro w
    obtain ⟨hk, hg, -, -⟩ := mergeAll_spec (chunks.map (mapChunk tbl)) hwf w
    have hlk : ∀ c ∈ chunks, (mapChunk tbl c).counts.lookup w
        = if (c.flatMap (tokens tbl)).count w = 0 then none
          else some ((c.flatMap (tokens tbl)).count w : Int) := by
      intro c hc
      have := lookup_tally_nil w (c.flatMap (tokens tbl)) (hcl c hc)
      simpa [mapChunk, countWords, hT] using this
    have hget : ∀ c ∈ chunks, (mapChunk tbl c).counts.get w
        = ((c.flatMap (tokens tbl)).count w : Int) := by
      intro c hc
      unfold GoMap.get
      rw [hlk c hc]
      split_ifs with h0
      · simp [h0]
      · rfl
    have hsum : ((chunks.map (mapChunk tbl)).map (fun p => p.counts.get w)).sum
        = ((lines.flatMap (tokens tbl)).count w : Int) := by
      rw [← count_chunks (tokens tbl) w chunks lines hperm, Nat.cast_list_sum, List.map_map,
        List.map_map]
      congr 1
      apply List.map_congr_left
      intro c hc
      exact hget c hc
    have hcnt : ((lines.flatMap (tokens tbl)).count w : Int) < 9223372036854775808 := by
      have : (lines.flatMap (tokens tbl)).count w < 2 ^ 63 :=
        lt_of_le_of_lt (List.count_le_length _ _) hWlen
      norm_num at this
      exact_mod_cast this
    have hwhole := lookup_tally_nil w (tokens tbl (join lines ['\n'])) (by rw [hW]; exact hWlen)
    rw [hW] at hwhole
    have hwhole2 : (countWords tbl (join lines ['\n'])).1.lookup w
        = if (lines.flatMap (tokens tbl)).count w = 0 then none
          else some ((lines.flatMap (tokens tbl)).count w : Int) := by
      simpa [countWords, hW] using hwhole
    rw [hwhole2, GoMap.lookup_eq_get, hg, hsum, wrap64_of_range _ (by omega) hcnt]
    have hiff : w ∈ (mergeAll (chunks.map (mapChunk tbl))).1.keys
        ↔ (lines.flatMap (tokens tbl)).count w ≠ 0 := by
      rw [hk, ← count_chunks (tokens tbl) w chunks lines hperm]
      constructor
      · rintro ⟨p, hp, hw⟩
        obtain ⟨c, hc, rfl⟩ := List.mem_map.1 hp
        obtain ⟨v, hv⟩ := (GoMap.mem_keys_iff _ w).1 hw
        rw [hlk c hc] at hv
        have hc0 : (c.flatMap (tokens tbl)).count w ≠ 0 := by
          intro h0; simp [h0] at hv
        have := le_sum_of_mem (chunks.map (fun c => (c.flatMap (tokens tbl)).count w)) _
          (List.mem_map.2 ⟨c, hc, rfl⟩)
        omega
      · intro hne
        by_contra hno
        apply hne
        apply List.sum_eq_zero
        intro x hx
        obtain ⟨c, hc, rfl⟩ := List.mem_map.1 hx
        by_contra hx0
        apply hno
        refine ⟨mapChunk tbl c, List.mem_map.2 ⟨c, hc, rfl⟩, (GoMap.mem_keys_iff _ w).2 ?_⟩
        rw [hlk c hc]
        simp [hx0]
    by_cases h0 : (lines.flatMap (tokens tbl)).count w = 0
    · rw [if_neg (by rw [hiff]; simpa using h0), if_pos h0]
    · rw [if_pos (hiff.2 h0), if_neg h0]
  · obtain ⟨-, -, ht, -⟩ := mergeAll_spec (chunks.map (mapChunk tbl)) hwf []
    have hsum : ((chunks.map (mapChunk tbl)).map (fun p => p.total)).sum
        = ((lines.flatMap (tokens tbl)).length : Int) := by
      rw [← length_chunks (tokens tbl) chunks lines hperm, Nat.cast_list_sum, List.map_map,
        List.map_map]
      congr 1
      apply List.map_congr_left
      intro c _
      simp [mapChunk, countWords, hT]
    have hcnt : ((lines.flatMap (tokens tbl)).length : Int) < 9223372036854775808 := by
      have := hWlen
      rw [show (2 : Nat) ^ 63 = 9223372036854775808 by norm_num] at this
      exact_mod_cast this
    rw [ht, hsum, wrap64_of_range _ (by omega) hcnt]
    simp [countWords, hW]

/-- C1. For every sequence of lines and every N in 1..50 (the source text, the
lines joined by a newline, being a Go string: fewer than 2^63 bytes): split the
lines with `splitLinesEvenly`, serialise each partition with
`formatChunkContent`, run `countWords` on each, and merge the N results with
the merge loop of the reducer; the merged mapping has the same keys and values
as the mapping of `countWords` on the whole source text, and the merged total
is its total. Lines free of a newline are a special case. -/
theorem split_map_reduce_eq_countWords (tbl : Char → Char) (lines : List Str) (N : Int)
    (h1 : 1 ≤ N) (h50 : N ≤ 50) (hlen : (join lines ['\n']).length < 2 ^ 63) :
    ∃ chunks, splitLinesEvenly lines N = some chunks ∧ (chunks.length : Int) = N ∧
      GoMap.Same (mergeAll (chunks.map (mapChunk tbl))).1
        (countWords tbl (join lines ['\n'])).1 ∧
      (mergeAll (chunks.map (mapChunk tbl))).2 = (countWords tbl (join lines ['\n'])).2 := by
  have hn : 0 < N.toNat := by omega
  refine ⟨_, splitLinesEvenly_eq lines N h1, ?_,
    merge_mapChunk_eq_countWords tbl lines _ (distribute_perm N.toNat hn lines) hlen⟩
  rw [distribute_length, List.length_replicate]
  omega

theorem split_map_reduce_eq_countWords_witness :
    (1 : Int) ≤ 2 ∧ (2 : Int) ≤ 50 ∧
    (join ["the cat sat".toList, "the dog ran".toList, "cat and dog played".toList]
      ['\n']).length < 2 ^ 63 ∧
    ∃ chunks, splitLinesEvenly
        ["the cat sat".toList, "the dog ran".toList, "cat and dog played".toList] 2 = some chunks ∧
      (chunks.length : Int) = 2 ∧
      GoMap.Same (mergeAll (chunks.map (mapChunk id))).1
        (countWords id (join
          ["the cat sat".toList, "the dog ran".toList, "cat and dog played".toList] ['\n'])).1 ∧
      (mergeAll (chunks.map (mapChunk id))).2 = (countWords id (join
          ["the cat sat".toList, "the dog ran".toList, "cat and dog played".toList] ['\n'])).2 :=
  ⟨by decide, by decide, by decide,
    split_map_reduce_eq_countWords id
      ["the cat sat".toList, "the dog ran".toList, "cat and dog played".toList] 2
      (by decide) (by decide) (by decide)⟩


/-- C5, as stated, fails where the exact sum leaves the range of a Go `int`:
merging a = 9223372036854775807 (total 9223372036854775807) with a = 1
(total 1) leaves a = -9223372036854775808 and total -9223372036854775808,
while the exact sums are 9223372036854775808. -/
theorem mergeAll_sum_overflow :
    (mergeAll [⟨[("a".toList, 9223372036854775807)], 9223372036854775807⟩,
        ⟨[("a".toList, 1)], 1⟩]).1.get "a".toList = -9223372036854775808 ∧
    (mergeAll [⟨[("a".toList, 9223372036854775807)], 9223372036854775807⟩,
        ⟨[("a".toList, 1)], 1⟩]).2 = -9223372036854775808 ∧
    (([⟨[("a".toList, 9223372036854775807)], 9223372036854775807⟩,
        ⟨[("a".toList, 1)], 1⟩] : List Payload).map (fun p => p.counts.get "a".toList)).sum
      = 9223372036854775808 ∧
    (([⟨[("a".toList, 9223372036854775807)], 9223372036854775807⟩,
        ⟨[("a".toList, 1)], 1⟩] : List Payload).map (fun p => p.total)).sum
      = 9223372036854775808 := by
  decide

/-- C7. Merging a list of partial results in any other order (a permutation of
the list; for two results A and B, the orders A, B and B, A) gives a mapping
with the same keys and the same counts, and the same total. -/
theorem mergeAll_perm (ps qs : List Payload) (hperm : ps.Perm qs)
    (hps : ∀ p ∈ ps, p.counts.WF) :
    GoMap.Same (mergeAll ps).1 (mergeAll qs).1 ∧ (mergeAll ps).2 = (mergeAll qs).2 := by
  have hqs : ∀ p ∈ qs, p.counts.WF := fun p hp => hps p (hperm.mem_iff.2 hp)
  constructor
  · intro w
    obtain ⟨hk1, hg1, -, -⟩ := mergeAll_spec ps hps w
    obtain ⟨hk2, hg2, -, -⟩ := mergeAll_spec qs hqs w
    have hk : w ∈ (mergeAll ps).1.keys ↔ w ∈ (mergeAll qs).1.keys := by
      rw [hk1, hk2]
      exact ⟨fun ⟨p, hp, h⟩ => ⟨p, hperm.mem_iff.1 hp, h⟩,
        fun ⟨p, hp, h⟩ => ⟨p, hperm.mem_iff.2 hp, h⟩⟩
    rw [GoMap.lookup_eq_get, GoMap.lookup_eq_get, hg1, hg2,
      (hperm.map (fun p => p.counts.get w)).sum_eq]
    by_cases h : w ∈ (mergeAll ps).1.keys
    · rw [if_pos h, if_pos (hk.1 h)]
    · rw [if_neg h, if_neg (fun h2 => h (hk.2 h2))]
  · rw [(mergeAll_spec ps hps []).2.2.1, (mergeAll_spec qs hqs []).2.2.1,
      (hperm.map (fun p => p.total)).sum_eq]

theorem mergeAll_perm_witness :
    ([⟨[("a".toList, 2)], 2⟩, ⟨[("a".toList, 3), ("b".toList, 1)], 4⟩] : List Payload).Perm
      [⟨[("a".toList, 3), ("b".toList, 1)], 4⟩, ⟨[("a".toList, 2)], 2⟩] ∧
    (∀ p ∈ ([⟨[("a".toList, 2)], 2⟩, ⟨[("a".toList, 3), ("b".toList, 1)], 4⟩] : List Payload),
      p.counts.WF) ∧
    GoMap.Same (mergeAll [⟨[("a".toList, 2)], 2⟩, ⟨[("a".toList, 3), ("b".toList, 1)], 4⟩]).1
      (mergeAll [⟨[("a".toList, 3), ("b".toList, 1)], 4⟩, ⟨[("a".toList, 2)], 2⟩]).1 ∧
    (mergeAll [⟨[("a".toList, 2)], 2⟩, ⟨[("a".toList, 3), ("b".toList, 1)], 4⟩]).2
      = (mergeAll [⟨[("a".toList, 3), ("b".toList, 1)], 4⟩, ⟨[("a".toList, 2)], 2⟩]).2 :=
  ⟨List.Perm.swap _ _ _, by decide,
    mergeAll_perm _ _ (List.Perm.swap _ _ _) (by decide)⟩


/-! ## Object locations: proofs -/

theorem splitN2_eq (s : Str) (sep : Char) :
    splitN2 s sep = match s.dropWhile (fun c => c != sep) with
      | [] => [s.takeWhile (fun c => c != sep)]
      | _ :: b => [s.takeWhile (fun c => c != sep), b] := by
  unfold splitN2
  rw [List.span_eq_take_drop]
  cases s.dropWhile (fun c => c != sep) <;> rfl

theorem splitN2_append (a b : Str) (sep : Char) (ha : sep ∉ a) :
    splitN2 (a ++ sep :: b) sep = [a, b] := by
  have hp : ∀ c ∈ a, (fun c => c != sep) c = true := by
    intro c hc
    simp only [bne_iff_ne, ne_eq]
    rintro rfl
    exact ha hc
  rw [splitN2_eq, List.dropWhile_append_of_pos hp, List.takeWhile_append_of_pos hp]
  simp

theorem splitN2_two (s : Str) (sep : Char) (a b : Str) (h : splitN2 s sep = [a, b]) :
    s = a ++ sep :: b ∧ sep ∉ a := by
  rw [splitN2_eq] at h
  have htd := List.takeWhile_append_dropWhile (fun c => c != sep) s
  have hhead := List.head?_dropWhile_not (fun c => c != sep) s
  cases hd : s.dropWhile (fun c => c != sep) with
  | nil => rw [hd] at h; simp at h
  | cons x xs =>
    rw [hd] at h htd hhead
    simp only [List.cons.injEq, and_true] at h
    obtain ⟨h1, h2⟩ := h
    have hx : x = sep := by
      simpa using hhead
    subst hx h2
    refine ⟨by rw [← h1]; exact htd.symm, ?_⟩
    intro hmem
    rw [← h1] at hmem
    have := List.mem_takeWhile_imp hmem
    simp at this

theorem splitN2_length (s : Str) (sep : Char) :
    (splitN2 s sep).length = 1 ∨ ∃ a b, splitN2 s sep = [a, b] := by
  rw [splitN2_eq]
  cases s.dropWhile (fun c => c != sep) with
  | nil => left; rfl
  | cons x xs => right; exact ⟨_, _, rfl⟩

theorem hasPrefix_s3 (u : Str) (h : hasPrefix u "s3://".toList = true) :
    u = "s3://".toList ++ trimPrefix u "s3://".toList := by
  unfold trimPrefix
  rw [if_pos h]
  unfold hasPrefix at h
  rw [List.isPrefixOf_iff_prefix] at h
  exact (List.prefix_iff_eq_append.1 h).symm

theorem parseS3URL_s3URL (bucket key : Str) (hb : bucket ≠ []) (hs : '/' ∉ bucket)
    (hk : key ≠ []) : parseS3URL (s3URL bucket key) = (bucket, key, none) := by
  have hpre : hasPrefix (s3URL bucket key) "s3://".toList = true := by
    unfold hasPrefix s3URL
    rw [List.isPrefixOf_iff_prefix, List.append_assoc]
    exact List.prefix_append _ _
  have htrim : trimPrefix (s3URL bucket key) "s3://".toList = bucket ++ '/' :: key := by
    unfold trimPrefix
    rw [if_pos hpre]
    simp [s3URL]
  unfold parseS3URL
  simp only [hpre, htrim, splitN2_append bucket key '/' hs]
  simp [hb, hk]

theorem parseS3URL_with_scheme (u : Str) (hpre : hasPrefix u "s3://".toList = true) :
    parseS3URL u =
      if (splitN2 (trimPrefix u "s3://".toList) '/').length ≠ 2 ∨
          (splitN2 (trimPrefix u "s3://".toList) '/').getD 0 [] = [] ∨
          (splitN2 (trimPrefix u "s3://".toList) '/').getD 1 [] = [] then
        ([], [], some invalidS3URL)
      else ((splitN2 (trimPrefix u "s3://".toList) '/').getD 0 [],
        (splitN2 (trimPrefix u "s3://".toList) '/').getD 1 [], none) := by
  unfold parseS3URL
  rw [hpre]
  rfl

theorem parseS3URL_without_scheme (u : Str) (hpre : hasPrefix u "s3://".toList = false) :
    parseS3URL u = ([], [], some invalidS3URL) := by
  unfold parseS3URL
  rw [hpre]
  rfl

theorem parseS3URL_ok (u : Str) (h : (parseS3URL u).2.2 = none) :
    ∃ bucket key, u = "s3://".toList ++ bucket ++ "/".toList ++ key ∧
      bucket ≠ [] ∧ '/' ∉ bucket ∧ key ≠ [] := by
  cases hpre : hasPrefix u "s3://".toList with
  | false => rw [parseS3URL_without_scheme u hpre] at h; exact absurd h (by simp)
  | true =>
    rw [parseS3URL_with_scheme u hpre] at h
    have hu := hasPrefix_s3 u hpre
    generalize trimPrefix u "s3://".toList = t at h hu
    rcases splitN2_length t '/' with h1 | ⟨a, b, hab⟩
    · rw [if_pos (Or.inl (by omega))] at h
      exact absurd h (by simp)
    · rw [hab] at h
      obtain ⟨e1, e2⟩ := splitN2_two _ _ _ _ hab
      by_cases hc : a = [] ∨ b = []
      · rw [if_pos (Or.inr (by simpa using hc))] at h
        exact absurd h (by simp)
      · refine ⟨a, b, ?_, fun h0 => hc (Or.inl h0), e2, fun h0 => hc (Or.inr h0)⟩
        rw [hu, e1]
        simp

theorem parseS3URL_err (u : Str) (h : (parseS3URL u).2.2 ≠ none) :
    parseS3URL u = ([], [], some invalidS3URL) := by
  cases hpre : hasPrefix u "s3://".toList with
  | false => exact parseS3URL_without_scheme u hpre
  | true =>
    rw [parseS3URL_with_scheme u hpre] at h ⊢
    split_ifs with hc
    · rfl
    · rw [if_neg hc] at h
      exact absurd rfl h

/-- C10. `parseS3URL u` succeeds exactly when `u` is `"s3://"`, a bucket that is
not empty and holds no `/`, a `/`, and a key that is not empty; it then returns
that bucket and that key (the key keeping any further `/`); on every other
string it returns the error with an empty bucket and an empty key. So, with a
bucket taken from a successful parse, the location `s3://<bucket>/<key>` built
for a non-empty key parses back to the same bucket and key. -/
theorem parseS3URL_spec (u : Str) :
    ((parseS3URL u).2.2 = none ↔
      ∃ bucket key, u = "s3://".toList ++ bucket ++ "/".toList ++ key ∧
        bucket ≠ [] ∧ '/' ∉ bucket ∧ key ≠ []) ∧
    (∀ bucket key, u = "s3://".toList ++ bucket ++ "/".toList ++ key →
      bucket ≠ [] → '/' ∉ bucket → key ≠ [] → parseS3URL u = (bucket, key, none)) ∧
    ((parseS3URL u).2.2 ≠ none → parseS3URL u = ([], [], some invalidS3URL)) ∧
    (∀ bucket key outKey, parseS3URL u = (bucket, key, none) → outKey ≠ [] →
      parseS3URL (s3URL bucket key) = (bucket, key, none) ∧
      parseS3URL (s3URL bucket outKey) = (bucket, outKey, none)) := by
  have hfwd : ∀ bucket key, u = "s3://".toList ++ bucket ++ "/".toList ++ key →
      bucket ≠ [] → '/' ∉ bucket → key ≠ [] → parseS3URL u = (bucket, key, none) := by
    intro bucket key hu hb hs hk
    have : u = s3URL bucket key := by rw [hu]; simp [s3URL]
    rw [this]
    exact parseS3URL_s3URL bucket key hb hs hk
  refine ⟨⟨parseS3URL_ok u, ?_⟩, hfwd, parseS3URL_err u, ?_⟩
  · rintro ⟨bucket, key, hu, hb, hs, hk⟩
    rw [hfwd bucket key hu hb hs hk]
  · intro bucket key outKey h hout
    obtain ⟨b0, k0, hu, hb0, hs0, hk0⟩ := parseS3URL_ok u (by rw [h])
    have := hfwd b0 k0 hu hb0 hs0 hk0
    rw [h] at this
    simp only [Prod.mk.injEq, and_true] at this
    obtain ⟨rfl, rfl⟩ := this
    exact ⟨parseS3URL_s3URL _ _ hb0 hs0 hk0, parseS3URL_s3URL _ _ hb0 hs0 hout⟩

example : parseS3URL "s3://b/k/x.txt".toList = ("b".toList, "k/x.txt".toList, none) := by decide
example : parseS3URL "s3://b/".toList = ([], [], some invalidS3URL) := by decide
example : parseS3URL "s3:///k".toList = ([], [], some invalidS3URL) := by decide
example : parseS3URL "s3://b".toList = ([], [], some invalidS3URL) := by decide
example : parseS3URL "http://b/k".toList = ([], [], some invalidS3URL) := by decide

/-! ## Numbers in text: proofs -/

theorem digitChar_spec (d : Nat) (h : d < 10) :
    '0' ≤ digitChar d ∧ digitChar d ≤ '9' ∧ (digitChar d).toNat - 48 = d := by
  interval_cases d <;> decide

theorem parseDigits_snoc (ds : Str) (c : Char) (hc : '0' ≤ c ∧ c ≤ '9') :
    ∀ acc, parseDigits acc (ds ++ [c])
      = (parseDigits acc ds).map (fun v => v * 10 + (c.toNat - 48)) := by
  induction ds with
  | nil => intro acc; simp [parseDigits, hc]
  | cons x xs ih =>
    intro acc
    by_cases hx : '0' ≤ x ∧ x ≤ '9'
    · simp only [List.cons_append, parseDigits, hx, and_self, if_true]
      exact ih _
    · simp only [List.cons_append, parseDigits, hx, if_false, Option.map_none']

theorem parseDigits_decDigits (fuel : Nat) :
    ∀ n, n < fuel → parseDigits 0 (decDigits fuel n) = some n := by
  induction fuel with
  | zero => intro n h; omega
  | succ f ih =>
    intro n h
    unfold decDigits
    by_cases h10 : n < 10
    · rw [if_pos h10]
      obtain ⟨a, b, c⟩ := digitChar_spec n h10
      simp [parseDigits, a, b, c]
    · rw [if_neg h10]
      obtain ⟨a, b, c⟩ := digitChar_spec (n % 10) (Nat.mod_lt _ (by decide))
      rw [parseDigits_snoc _ _ ⟨a, b⟩, ih (n / 10) (by omega), c]
      simp
      omega

theorem decDigits_all (fuel : Nat) :
    ∀ n, ∀ c ∈ decDigits fuel n, '0' ≤ c ∧ c ≤ '9' := by
  induction fuel with
  | zero => intro n c hc; simp [decDigits] at hc
  | succ f ih =>
    intro n c hc
    unfold decDigits at hc
    by_cases h10 : n < 10
    · rw [if_pos h10] at hc
      simp only [List.mem_singleton] at hc
      subst hc
      exact ⟨(digitChar_spec n h10).1, (digitChar_spec n h10).2.1⟩
    · rw [if_neg h10] at hc
      rcases List.mem_append.1 hc with h | h
      · exact ih _ c h
      · simp only [List.mem_singleton] at h
        subst h
        have := digitChar_spec (n % 10) (Nat.mod_lt _ (by decide))
        exact ⟨this.1, this.2.1⟩

theorem decDigits_ne_nil (fuel n : Nat) : decDigits (fuel + 1) n ≠ [] := by
  unfold decDigits
  split_ifs <;> simp

/-- Sign-stripping step shared by `atoi` and `isIntegerText`. -/
theorem digit_not_sign (c : Char) (h : '0' ≤ c ∧ c ≤ '9') : c ≠ '-' ∧ c ≠ '+' := by
  constructor
  · rintro rfl; exact absurd h.1 (by decide)
  · rintro rfl; exact absurd h.1 (by decide)

theorem atoi_of_digits (ds : Str) (v : Nat) (hne : ds ≠ []) (hall : ∀ c ∈ ds, '0' ≤ c ∧ c ≤ '9')
    (hp : parseDigits 0 ds = some v) :
    atoi ds = (if 9223372036854775807 < (v : Int) then .error "value out of range".toList
      else .ok (v : Int)) ∧
    atoi ('-' :: ds) = (if -(v : Int) < -9223372036854775808 then
      .error "value out of range".toList else .ok (-(v : Int))) := by
  cases ds with
  | nil => exact absurd rfl hne
  | cons d rest =>
    obtain ⟨hd1, hd2⟩ := digit_not_sign d (hall d (List.mem_cons_self _ _))
    constructor
    · have h1 : ((d :: rest).head? = some '-') = False := by simp [hd1]
      have h2 : ((d :: rest).head? = some '+') = False := by simp [hd2]
      have : ¬ ((v : Int) < -9223372036854775808) := by omega
      unfold atoi
      simp only [h1, h2, or_false, if_false, hp, List.isEmpty_cons, Bool.false_eq_true,
        decide_False, this, false_or]
    · unfold atoi
      simp only [List.head?_cons, true_or, if_true, List.tail_cons, hp, List.isEmpty_cons,
        Bool.false_eq_true, if_false, decide_True]
      have : ¬ (9223372036854775807 < -(v : Int)) := by omega
      simp only [this, or_false]

theorem atoi_itoa (n : Int) :
    atoi (itoa n) = (if n < -9223372036854775808 ∨ 9223372036854775807 < n then
      .error "value out of range".toList else .ok n) := by
  have hne := decDigits_ne_nil n.natAbs n.natAbs
  have hall := decDigits_all (n.natAbs + 1) n.natAbs
  have hp := parseDigits_decDigits (n.natAbs + 1) n.natAbs (by omega)
  obtain ⟨h1, h2⟩ := atoi_of_digits _ _ hne hall hp
  unfold itoa
  by_cases hn : n < 0
  · rw [if_pos hn, h2]
    have e : -((n.natAbs : Nat) : Int) = n := by omega
    rw [e]
    have : ¬ (9223372036854775807 < n) := by omega
    simp only [this, or_false]
  · rw [if_neg hn, h1]
    have e : ((n.natAbs : Nat) : Int) = n := by omega
    rw [e]
    have : ¬ (n < -9223372036854775808) := by omega
    simp only [this, false_or]

theorem parseDigits_some_all (ds : Str) :
    ∀ acc v, parseDigits acc ds = some v → ∀ c ∈ ds, '0' ≤ c ∧ c ≤ '9' := by
  induction ds with
  | nil => intro acc v _ c hc; simp at hc
  | cons x xs ih =>
    intro acc v h c hc
    by_cases hx : '0' ≤ x ∧ x ≤ '9'
    · simp only [parseDigits, hx, and_self, if_true] at h
      rcases List.mem_cons.1 hc with rfl | h2
      · exact hx
      · exact ih _ v h c h2
    · simp [parseDigits, hx] at h

theorem atoi_ok_isIntegerText (s : Str) (n : Int) (h : atoi s = .ok n) :
    isIntegerText s = true := by
  unfold atoi at h
  unfold isIntegerText
  simp only [] at h ⊢
  generalize (if s.head? = some '-' ∨ s.head? = some '+' then s.tail else s) = ds at h ⊢
  by_cases he : ds.isEmpty = true
  · simp [he] at h
  · simp only [he, Bool.false_eq_true, if_false] at h
    cases hp : parseDigits 0 ds with
    | none => rw [hp] at h; simp at h
    | some v =>
      have := parseDigits_some_all ds 0 v hp
      simp only [Bool.not_eq_true] at he
      simp only [he, Bool.not_false, Bool.true_and, List.all_eq_true, Bool.and_eq_true,
        decide_eq_true_eq]
      exact this

/-! ## Splitter: the partition count -/

theorem validateParts_some (s : Str) :
    validateParts (some s) = match atoi s with
      | .error _ => .error partsMsg
      | .ok n => if n ≤ 0 ∨ n > 50 then .error partsMsg else .ok n := rfl

theorem validateParts_ok_iff (s : Str) (n : Int) :
    validateParts (some s) = .ok n ↔ atoi s = .ok n ∧ 1 ≤ n ∧ n ≤ 50 := by
  rw [validateParts_some]
  cases h : atoi s with
  | error e => simp
  | ok m =>
    by_cases hm : m ≤ 0 ∨ m > 50
    · simp only [hm, if_true, Except.ok.injEq, false_iff, reduceCtorEq]
      rintro ⟨rfl, h1, h2⟩
      omega
    · simp only [hm, if_false, Except.ok.injEq]
      constructor
      · rintro rfl; exact ⟨rfl, by omega, by omega⟩
      · rintro ⟨h1, -, -⟩; exact h1

theorem validateParts_cases (p : Option Str) :
    validateParts p = .error partsMsg ∨ ∃ n, validateParts p = .ok n ∧ 1 ≤ n ∧ n ≤ 50 := by
  unfold validateParts
  simp only []
  cases atoi (p.getD "3".toList) with
  | error e => left; rfl
  | ok m =>
    by_cases hm : m ≤ 0 ∨ m > 50
    · left; simp only [hm, if_true]
    · right; exact ⟨m, by simp only [hm, if_false], by omega, by omega⟩

theorem handleSplit_of_invalid_parts (env : Env) (q : SplitQuery) (e : Str)
    (h : validateParts q.parts = .error e) :
    (handleSplit env q).2 = [] ∧ (handleSplit env q).1.status = 400 ∧
    (q.inputS3 ≠ [] → (handleSplit env q).1 = ⟨400, .error e⟩) := by
  unfold handleSplit
  by_cases hi : q.inputS3.isEmpty = true
  · rw [if_pos hi]
    refine ⟨rfl, rfl, fun hne => ?_⟩
    simp at hi
    exact absurd hi hne
  · rw [if_neg hi, h]
    exact ⟨rfl, rfl, fun _ => rfl⟩

/-- C9. `validateParts` returns n on the decimal text of every integer n in
1..50 and the error on the decimal text of every integer n <= 0 or n > 50 (so
on "0" and "51") and on every string that is not an integer (optional sign,
then digits); it returns an integer only when the text reads, with
`strconv.Atoi`, as that integer and it lies in 1..50, and otherwise that one
error; without the parameter the default 3 applies. When `validateParts` fails,
`handleSplit` answers 400 with that error (given an input location) and has
sent no request, get or put, to the store. -/
theorem validateParts_spec :
    (∀ n : Int, 1 ≤ n → n ≤ 50 → validateParts (some (itoa n)) = .ok n) ∧
    (∀ n : Int, n ≤ 0 ∨ 50 < n → validateParts (some (itoa n)) = .error partsMsg) ∧
    (∀ s, isIntegerText s = false → validateParts (some s) = .error partsMsg) ∧
    (∀ s n, validateParts (some s) = .ok n ↔ atoi s = .ok n ∧ 1 ≤ n ∧ n ≤ 50) ∧
    (∀ p, validateParts p = .error partsMsg ∨ ∃ n, validateParts p = .ok n ∧ 1 ≤ n ∧ n ≤ 50) ∧
    validateParts (some "0".toList) = .error partsMsg ∧
    validateParts (some "51".toList) = .error partsMsg ∧
    validateParts (some "1".toList) = .ok 1 ∧
    validateParts (some "50".toList) = .ok 50 ∧
    validateParts none = .ok 3 ∧
    (∀ (env : Env) (q : SplitQuery) (e : Str), validateParts q.parts = .error e →
      (handleSplit env q).2 = [] ∧ (handleSplit env q).1.status = 400 ∧
      (q.inputS3 ≠ [] → (handleSplit env q).1 = ⟨400, .error e⟩)) := by
  refine ⟨?_, ?_, ?_, validateParts_ok_iff, validateParts_cases, by decide, by decide, by decide,
    by decide, by decide, handleSplit_of_invalid_parts⟩
  · intro n h1 h2
    rw [validateParts_ok_iff, atoi_itoa, if_neg (by omega)]
    exact ⟨rfl, h1, h2⟩
  · intro n h
    rw [validateParts_some, atoi_itoa]
    by_cases hr : n < -9223372036854775808 ∨ 9223372036854775807 < n
    · rw [if_pos hr]
    · rw [if_neg hr]
      simp only []
      rw [if_pos (by omega)]
  · intro s hs
    rw [validateParts_some]
    cases h : atoi s with
    | error e => rfl
    | ok m =>
      have := atoi_ok_isIntegerText s m h
      rw [hs] at this
      exact absurd this (by simp)

/-! ## Reducer: the handler, proofs -/

theorem mergeLoop_cons_ok (env : Env) (bucket u : Str) (rest : List Str) (st : MergeState)
    (p : Payload) (h1 : (parseS3URL u).2.2 = none) (h2 : (parseS3URL u).1 = bucket)
    (h3 : decodeAt env bucket u = some p) :
    mergeLoop env bucket (u :: rest) st
      = mergeLoop env bucket rest
          { acc := mergeStep st.acc p, log := st.log ++ [fetchOf bucket u] } := by
  unfold decodeAt at h3
  rcases hp : parseS3URL u with ⟨b, key, e⟩
  rw [hp] at h1 h2 h3
  simp only at h1 h2 h3
  subst h1 h2
  rw [mergeLoop, hp]
  simp only [ne_eq, not_true_eq_false, if_false, fetchOf, hp]
  cases hg : env.getObject b key with
  | error e => rw [hg] at h3; simp at h3
  | ok raw =>
    rw [hg] at h3
    simp only at h3 ⊢
    cases hu : env.unmarshal raw with
    | error e => rw [hu] at h3; simp at h3
    | ok payload =>
      rw [hu] at h3
      simp only [Option.some.injEq] at h3
      subst h3
      rfl

theorem mergeLoop_cons_log (env : Env) (bucket u : Str) (rest : List Str) (st : MergeState) :
    (mergeLoop env bucket (u :: rest) st).1.isSome = true ∧
      ((mergeLoop env bucket (u :: rest) st).2.log = st.log ∨
       (mergeLoop env bucket (u :: rest) st).2.log = st.log ++ [fetchOf bucket u]) ∨
    ∃ p, mergeLoop env bucket (u :: rest) st
      = mergeLoop env bucket rest
          { acc := mergeStep st.acc p, log := st.log ++ [fetchOf bucket u] } := by
  rcases hp : parseS3URL u with ⟨b, key, e⟩
  rw [mergeLoop, hp]
  cases e with
  | some e => left; exact ⟨rfl, Or.inl rfl⟩
  | none =>
    simp only
    by_cases hb : b = bucket
    · subst hb
      simp only [ne_eq, not_true_eq_false, if_false, fetchOf, hp]
      cases hg : env.getObject b key with
      | error e => left; exact ⟨rfl, Or.inr rfl⟩
      | ok raw =>
        simp only
        cases hu : env.unmarshal raw with
        | error e => left; exact ⟨rfl, Or.inr rfl⟩
        | ok payload => right; exact ⟨payload, rfl⟩
    · left
      rw [if_pos hb]
      exact ⟨rfl, Or.inl rfl⟩

theorem mergeLoop_bad (env : Env) (bucket bad : Str) (post : List Str) (st : MergeState)
    (h1 : (parseS3URL bad).2.2 = none) (h2 : (parseS3URL bad).1 ≠ bucket) :
    mergeLoop env bucket (bad :: post) st = (some ⟨400, .error mixedBucketMsg⟩, st) := by
  rcases hp : parseS3URL bad with ⟨b, key, e⟩
  rw [hp] at h1 h2
  simp only at h1 h2
  subst h1
  rw [mergeLoop, hp]
  simp only [ne_eq, h2, not_false_eq_true, if_true]

theorem mergeLoop_mixed (env : Env) (bucket bad : Str) (post : List Str)
    (h1 : (parseS3URL bad).2.2 = none) (h2 : (parseS3URL bad).1 ≠ bucket) (pre : List Str) :
    ∀ st : MergeState,
      (mergeLoop env bucket (pre ++ bad :: post) st).1.isSome = true ∧
      ∃ l, (mergeLoop env bucket (pre ++ bad :: post) st).2.log = st.log ++ l ∧
        l <+: pre.map (fetchOf bucket) := by
  induction pre with
  | nil =>
    intro st
    rw [List.nil_append, mergeLoop_bad env bucket bad post st h1 h2]
    exact ⟨rfl, [], by simp, List.nil_prefix⟩
  | cons u rest ih =>
    intro st
    rw [List.cons_append]
    rcases mergeLoop_cons_log env bucket u (rest ++ bad :: post) st with ⟨hs, hl | hl⟩ | ⟨p, hp⟩
    · exact ⟨hs, [], by simp [hl], List.nil_prefix⟩
    · refine ⟨hs, [fetchOf bucket u], hl, ?_⟩
      rw [List.map_cons]
      exact List.prefix_cons_inj _ |>.2 List.nil_prefix
    · rw [hp]
      obtain ⟨hs, l, hl, hpre⟩ := ih { acc := mergeStep st.acc p, log := st.log ++ [fetchOf bucket u] }
      refine ⟨hs, fetchOf bucket u :: l, by simp [hl], ?_⟩
      rw [List.map_cons]
      exact (List.prefix_cons_inj _).2 hpre

theorem mergeLoop_all_ok (env : Env) (bucket : Str) (rest : List Str) (pre : List Str) :
    ∀ st : MergeState,
      (∀ u ∈ pre, (parseS3URL u).2.2 = none ∧ (parseS3URL u).1 = bucket ∧
        (decodeAt env bucket u).isSome = true) →
      mergeLoop env bucket (pre ++ rest) st
        = mergeLoop env bucket rest
            { acc := (pre.filterMap (decodeAt env bucket)).foldl mergeStep st.acc,
              log := st.log ++ pre.map (fetchOf bucket) } := by
  induction pre with
  | nil => intro st _; simp
  | cons u us ih =>
    intro st h
    obtain ⟨h1, h2, h3⟩ := h u (List.mem_cons_self _ _)
    obtain ⟨p, hp⟩ := Option.isSome_iff_exists.1 h3
    rw [List.cons_append, mergeLoop_cons_ok env bucket u _ st p h1 h2 hp,
      ih _ (fun v hv => h v (List.mem_cons_of_mem _ hv))]
    simp [List.filterMap_cons, hp]

theorem mergeLoop_status (env : Env) (bucket : Str) (inputs : List Str) :
    ∀ (st : MergeState) (r : Response), (mergeLoop env bucket inputs st).1 = some r →
      r.status = 400 ∨ r.status = 500 := by
  induction inputs with
  | nil => intro st r h; simp [mergeLoop] at h
  | cons u rest ih =>
    intro st r h
    rcases hp : parseS3URL u with ⟨b, key, e⟩
    rw [mergeLoop, hp] at h
    cases e with
    | some e =>
      simp only [Option.some.injEq] at h
      subst h; left; rfl
    | none =>
      simp only at h
      by_cases hb : b = bucket
      · subst hb
        simp only [ne_eq, not_true_eq_false, if_false] at h
        cases hg : env.getObject b key with
        | error e =>
          rw [hg] at h
          simp only [Option.some.injEq] at h
          subst h; right; rfl
        | ok raw =>
          rw [hg] at h
          simp only at h
          cases hu : env.unmarshal raw with
          | error e =>
            rw [hu] at h
            simp only [Option.some.injEq] at h
            subst h; right; rfl
          | ok payload =>
            rw [hu] at h
            exact ih _ r h
      · rw [if_pos hb] at h
        simp only [Option.some.injEq] at h
        subst h; left; rfl

/-- C8, as stated, fails: with the inputs `s3://b1/k1,s3://b2/k2` the reducer
has fetched `b1/k1` from the store and merged it (a = 1, total 1) when it
rejects the request for the bucket of the second location; and when that first
fetch fails the request ends with the read error, not the mixed-bucket one. -/
theorem handleReduce_mixed_bucket_fetches_first :
    handleReduce exampleEnv mixedQuery
      = (⟨400, .error mixedBucketMsg⟩, [StoreOp.get "b1".toList "k1".toList]) ∧
    (mergeMapResults exampleEnv "b1".toList (splitCSV mixedQuery.inputs)).2.acc
      = ([("a".toList, 1)], 1) ∧
    handleReduce { exampleEnv with getObject := fun _ _ => .error "NoSuchKey".toList } mixedQuery
      = (⟨500, .error "read map json failed: NoSuchKey".toList⟩,
          [StoreOp.get "b1".toList "k1".toList]) := by
  decide

/-- C8, amended. Let some location of the reduce input list parse to a bucket
other than the bucket of the first location. Then reduce ends in an error
(status 400 or 500) and the requests it sent to the store are fetches of
locations before that one, in order: nothing is written, so no final object,
and neither that location nor a later one is fetched. When moreover every
location before it parses to the bucket of the first, is fetched and decodes
(so it is the first mismatching location), reduce fails with the mixed-bucket
error, status 400, and at that moment every earlier location has been fetched
and merged into the running mapping. -/
theorem handleReduce_mixed_bucket (env : Env) (q : ReduceQuery) (pre : List Str) (bad : Str)
    (post : List Str) (bucket key0 : Str)
    (hin : splitCSV q.inputs = pre ++ bad :: post)
    (hfirst : parseS3URL ((pre ++ bad :: post).headD []) = (bucket, key0, none))
    (hbad : (parseS3URL bad).2.2 = none ∧ (parseS3URL bad).1 ≠ bucket) :
    ((handleReduce env q).1.status = 400 ∨ (handleReduce env q).1.status = 500) ∧
    (handleReduce env q).2 <+: pre.map (fetchOf bucket) ∧
    (env.clientErr = none →
      (∀ u ∈ pre, (parseS3URL u).2.2 = none ∧ (parseS3URL u).1 = bucket ∧
        (decodeAt env bucket u).isSome = true) →
      handleReduce env q = (⟨400, .error mixedBucketMsg⟩, pre.map (fetchOf bucket)) ∧
      (mergeMapResults env bucket (pre ++ bad :: post)).2.acc
        = mergeAll (pre.filterMap (decodeAt env bucket))) := by
  have hne : q.inputs.isEmpty = false := by
    cases hq : q.inputs with
    | nil =>
      rw [hq] at hin
      exact absurd hin (by simp [splitCSV, List.splitOnP, List.splitOnP.go, trimSpace])
    | cons a as => rfl
  have hlen : ¬ (pre ++ bad :: post).length < 1 := by simp
  obtain ⟨hsome, l, hl, hpre⟩ :=
    mergeLoop_mixed env bucket bad post hbad.1 hbad.2 pre { acc := ([], 0), log := [] }
  obtain ⟨r, hr⟩ := Option.isSome_iff_exists.1 hsome
  have hst := mergeLoop_status env bucket _ _ r hr
  simp only [List.nil_append] at hl
  have hgen : ((handleReduce env q).1.status = 400 ∨ (handleReduce env q).1.status = 500) ∧
      (handleReduce env q).2 <+: pre.map (fetchOf bucket) := by
    unfold handleReduce
    rw [hne]
    simp only [Bool.false_eq_true, if_false, hin, hlen, hfirst]
    cases hc : env.clientErr with
    | some e => exact ⟨Or.inr rfl, List.nil_prefix⟩
    | none =>
      simp only
      unfold mergeMapResults
      rcases hm : mergeLoop env bucket (pre ++ bad :: post) { acc := ([], 0), log := [] }
        with ⟨resp, st⟩
      rw [hm] at hr hl
      simp only at hr hl
      subst hr
      simp only
      rw [hl]
      exact ⟨hst, hpre⟩
  refine ⟨hgen.1, hgen.2, ?_⟩
  intro hc hall
  have hloop := mergeLoop_all_ok env bucket (bad :: post) pre { acc := ([], 0), log := [] } hall
  rw [mergeLoop_bad env bucket bad post _ hbad.1 hbad.2] at hloop
  constructor
  · unfold handleReduce
    rw [hne]
    simp only [Bool.false_eq_true, if_false, hin, hlen, hfirst, hc]
    unfold mergeMapResults
    rw [hloop]
    simp
  · unfold mergeMapResults
    rw [hloop]
    rfl

theorem handleReduce_mixed_bucket_witness :
    splitCSV mixedQuery.inputs = ["s3://b1/k1".toList] ++ "s3://b2/k2".toList :: [] ∧
    parseS3URL ((["s3://b1/k1".toList] ++ "s3://b2/k2".toList :: []).headD [])
      = ("b1".toList, "k1".toList, none) ∧
    ((parseS3URL "s3://b2/k2".toList).2.2 = none ∧
      (parseS3URL "s3://b2/k2".toList).1 ≠ "b1".toList) ∧
    ((handleReduce exampleEnv mixedQuery).1.status = 400 ∨
      (handleReduce exampleEnv mixedQuery).1.status = 500) ∧
    (handleReduce exampleEnv mixedQuery).2 <+: ["s3://b1/k1".toList].map (fetchOf "b1".toList) ∧
    (exampleEnv.clientErr = none →
      (∀ u ∈ ["s3://b1/k1".toList], (parseS3URL u).2.2 = none ∧
        (parseS3URL u).1 = "b1".toList ∧ (decodeAt exampleEnv "b1".toList u).isSome = true) →
      handleReduce exampleEnv mixedQuery
        = (⟨400, .error mixedBucketMsg⟩, ["s3://b1/k1".toList].map (fetchOf "b1".toList)) ∧
      (mergeMapResults exampleEnv "b1".toList
          (["s3://b1/k1".toList] ++ "s3://b2/k2".toList :: [])).2.acc
        = mergeAll (["s3://b1/k1".toList].filterMap (decodeAt exampleEnv "b1".toList))) :=
  ⟨by decide, by decide, by decide,
    handleReduce_mixed_bucket exampleEnv mixedQuery ["s3://b1/k1".toList] "s3://b2/k2".toList []
      "b1".toList "k1".toList (by decide) (by decide) (by decide)⟩


/-! ## Reducer: top K, proofs -/

theorem strLt_iff (a : Str) : ∀ b : Str, strLt a b = true ↔ List.Lex (fun x y : Char => x < y) a b := by
  induction a with
  | nil =>
    intro b
    cases b with
    | nil => simp [strLt, List.Lex.not_nil_right]
    | cons y ys => simp [strLt, List.Lex.nil]
  | cons x xs ih =>
    intro b
    cases b with
    | nil => simp [strLt, List.Lex.not_nil_right]
    | cons y ys =>
      unfold strLt
      by_cases h1 : x < y
      · simp only [h1, if_true, true_iff]
        exact List.Lex.rel h1
      · by_cases h2 : y < x
        · simp only [h1, h2, if_false, if_true, Bool.false_eq_true, false_iff]
          intro h
          cases h with
          | cons h => exact lt_irrefl _ h2
          | rel h => exact h1 h
        · have hxy : x = y := le_antisymm (not_lt.1 h2) (not_lt.1 h1)
          subst hxy
          simp only [h1, if_false, ih ys]
          exact (List.Lex.cons_iff).symm

theorem topLess_iff (a b : Str × Int) : topLess a b = true ↔ Before a b := by
  unfold topLess Before
  by_cases h : a.2 = b.2
  · simp only [h, if_true, strLt_iff, lt_irrefl, false_or, true_and]
  · simp only [h, if_false, decide_eq_true_eq, gt_iff_lt, false_and, or_false]

theorem wordLt_trans {a b c : Str} (h1 : List.Lex (fun x y : Char => x < y) a b)
    (h2 : List.Lex (fun x y : Char => x < y) b c) : List.Lex (fun x y : Char => x < y) a c :=
  trans_of (List.Lex fun x y : Char => x < y) h1 h2

theorem wordLt_irrefl (a : Str) : ¬ List.Lex (fun x y : Char => x < y) a a :=
  irrefl_of (List.Lex fun x y : Char => x < y) a

theorem wordLt_trichotomous (a b : Str) :
    List.Lex (fun x y : Char => x < y) a b ∨ a = b ∨ List.Lex (fun x y : Char => x < y) b a :=
  trichotomous_of (List.Lex fun x y : Char => x < y) a b

theorem Before_irrefl (a : Str × Int) : ¬ Before a a := by
  rintro (h | ⟨-, h⟩)
  · exact lt_irrefl _ h
  · exact wordLt_irrefl _ h

theorem Before_trans {a b c : Str × Int} (h1 : Before a b) (h2 : Before b c) : Before a c := by
  rcases h1 with h1 | ⟨e1, l1⟩ <;> rcases h2 with h2 | ⟨e2, l2⟩
  · exact Or.inl (lt_trans h2 h1)
  · exact Or.inl (by omega)
  · exact Or.inl (by omega)
  · exact Or.inr ⟨e1.trans e2, wordLt_trans l1 l2⟩

theorem Before_asymm {a b : Str × Int} (h1 : Before a b) (h2 : Before b a) : False :=
  Before_irrefl a (Before_trans h1 h2)

theorem Before_trichotomous (a b : Str × Int) (h : a.1 ≠ b.1) : Before a b ∨ Before b a := by
  rcases lt_trichotomy a.2 b.2 with h1 | h1 | h1
  · exact Or.inr (Or.inl h1)
  · rcases wordLt_trichotomous a.1 b.1 with h2 | h2 | h2
    · exact Or.inl (Or.inr ⟨h1, h2⟩)
    · exact absurd h2 h
    · exact Or.inr (Or.inr ⟨h1.symm, h2⟩)
  · exact Or.inl (Or.inl h1)

/-- The relation handed to insertion sort: `b` is not before `a`. -/
theorem notLess_iff (a b : Str × Int) : (topLess b a = false) ↔ ¬ Before b a := by
  rw [← topLess_iff]; simp

theorem notLess_total : IsTotal (Str × Int) (fun a b => topLess b a = false) where
  total a b := by
    rw [notLess_iff, notLess_iff]
    by_contra h
    push_neg at h
    exact Before_asymm h.1 h.2

theorem notLess_trans : IsTrans (Str × Int) (fun a b => topLess b a = false) where
  trans a b c := by
    rw [notLess_iff, notLess_iff, notLess_iff]
    intro h1 h2 h3
    by_cases hab : a = b
    · subst hab; exact h2 h3
    · by_cases hk : a.1 = b.1
      · -- same word, different count
        have hne : a.2 ≠ b.2 := fun h => hab (Prod.ext hk h)
        rcases lt_or_gt_of_ne hne with h4 | h4
        · exact h1 (Or.inl h4)
        · -- b.2 < a.2, so a before b, hence c before b
          exact h2 (Before_trans h3 (Or.inl h4))
      · rcases Before_trichotomous a b hk with h4 | h4
        · exact h2 (Before_trans h3 h4)
        · exact h1 h4

theorem sortSlice_perm (m : GoMap) : (sortSlice topLess m).Perm m :=
  List.perm_insertionSort _ m

theorem sortSlice_pairwise (m : GoMap) (hm : m.WF) : (sortSlice topLess m).Pairwise Before := by
  haveI := notLess_total
  haveI := notLess_trans
  have hs : (sortSlice topLess m).Pairwise (fun a b => topLess b a = false) :=
    List.sorted_insertionSort _ m
  have hk : (sortSlice topLess m).Pairwise (fun a b => a.1 ≠ b.1) := by
    have : ((sortSlice topLess m).map Prod.fst).Nodup :=
      ((sortSlice_perm m).map Prod.fst).nodup_iff.2 hm
    exact (List.pairwise_map.1 this)
  refine (hs.and hk).imp ?_
  rintro a b ⟨h1, h2⟩
  rcases Before_trichotomous a b h2 with h | h
  · exact h
  · exact absurd h ((notLess_iff a b).1 h1)

theorem sorted_unique (s t : List (Str × Int)) (hp : s.Perm t) (hs : s.Pairwise Before)
    (ht : t.Pairwise Before) : s = t := by
  haveI : IsAntisymm (Str × Int) Before := ⟨fun a b h1 h2 => (Before_asymm h1 h2).elim⟩
  exact List.eq_of_perm_of_sorted hp hs ht

theorem computeTopK_eq (m : GoMap) (k : Nat) :
    computeTopK m (k : Int) = some ((sortSlice topLess m).take k) := by
  unfold computeTopK
  simp only []
  by_cases h : ((sortSlice topLess m).length : Int) > (k : Int)
  · rw [if_pos h, if_neg (by omega)]
    simp
  · rw [if_neg h, List.take_of_length_le (by omega)]

/-- C6. For every mapping `m` (a Go map: every key once) and every k >= 0,
`computeTopK m k` is a list of `min k |m|` entries of `m`, in order of count
descending and, among equal counts, of word ascending (lexicographic), every
entry left out coming after every entry kept: it is the first k entries of the
one arrangement of the entries of `m` in that order, in whatever order the map
is iterated. With k = 10 the list has at most 10 entries, and b = 2, a = 2,
c = 1 with k = 2 gives (a, 2), (b, 2). -/
theorem computeTopK_spec (m : GoMap) (hm : m.WF) (k : Nat) :
    ∃ top, computeTopK m (k : Int) = some top ∧
      top.length = min k m.length ∧
      top.Pairwise Before ∧
      (∃ rest, (top ++ rest).Perm m ∧ ∀ a ∈ top, ∀ b ∈ rest, Before a b) ∧
      (∀ s : List (Str × Int), s.Perm m → s.Pairwise Before → top = s.take k) ∧
      (∀ m2 : GoMap, m2.Perm m → computeTopK m2 (k : Int) = some top) ∧
      (∀ top10, computeTopK m 10 = some top10 → top10.length ≤ 10) ∧
      computeTopK [("b".toList, 2), ("a".toList, 2), ("c".toList, 1)] 2
        = some [("a".toList, 2), ("b".toList, 2)] := by
  have hperm := sortSlice_perm m
  have hpw := sortSlice_pairwise m hm
  have huniq : ∀ s : List (Str × Int), s.Perm m → s.Pairwise Before → sortSlice topLess m = s :=
    fun s hs hp => sorted_unique _ _ (hperm.trans hs.symm) hpw hp
  refine ⟨(sortSlice topLess m).take k, computeTopK_eq m k, ?_, ?_, ?_, ?_, ?_, ?_, by decide⟩
  · rw [List.length_take, hperm.length_eq]
  · exact hpw.sublist (List.take_sublist _ _)
  · refine ⟨(sortSlice topLess m).drop k, by rw [List.take_append_drop]; exact hperm, ?_⟩
    have := hpw
    rw [← List.take_append_drop k (sortSlice topLess m), List.pairwise_append] at this
    exact this.2.2
  · intro s hs hp
    rw [huniq s hs hp]
  · intro m2 h2
    have hm2 : GoMap.WF m2 := (h2.map Prod.fst).nodup_iff.2 hm
    rw [computeTopK_eq m2 k, huniq _ ((sortSlice_perm m2).trans h2) (sortSlice_pairwise m2 hm2)]
  · intro top10 h
    have := computeTopK_eq m 10
    simp only [Nat.cast_ofNat] at this
    rw [this] at h
    simp only [Option.some.injEq] at h
    subst h
    rw [List.length_take]
    exact Nat.min_le_left _ _

theorem computeTopK_spec_witness :
    GoMap.WF [("b".toList, 2), ("a".toList, 2), ("c".toList, 1)] ∧
    ∃ top, computeTopK [("b".toList, 2), ("a".toList, 2), ("c".toList, 1)] ((2 : Nat) : Int)
        = some top ∧
      top.length = min 2 [("b".toList, (2 : Int)), ("a".toList, 2), ("c".toList, 1)].length ∧
      top.Pairwise Before ∧
      (∃ rest, (top ++ rest).Perm [("b".toList, 2), ("a".toList, 2), ("c".toList, 1)] ∧
        ∀ a ∈ top, ∀ b ∈ rest, Before a b) ∧
      (∀ s : List (Str × Int), s.Perm [("b".toList, 2), ("a".toList, 2), ("c".toList, 1)] →
        s.Pairwise Before → top = s.take 2) ∧
      (∀ m2 : GoMap, m2.Perm [("b".toList, 2), ("a".toList, 2), ("c".toList, 1)] →
        computeTopK m2 ((2 : Nat) : Int) = some top) ∧
      (∀ top10, computeTopK [("b".toList, 2), ("a".toList, 2), ("c".toList, 1)] 10 = some top10 →
        top10.length ≤ 10) ∧
      computeTopK [("b".toList, 2), ("a".toList, 2), ("c".toList, 1)] 2
        = some [("a".toList, 2), ("b".toList, 2)] :=
  ⟨by decide, computeTopK_spec [("b".toList, 2), ("a".toList, 2), ("c".toList, 1)] (by decide) 2⟩

theorem mergeMapResults_eq_mergeAll (env : Env) (bucket : Str) (inputs : List Str)
    (h : ∀ u ∈ inputs, (parseS3URL u).2.2 = none ∧ (parseS3URL u).1 = bucket ∧
      (decodeAt env bucket u).isSome = true) :
    mergeMapResults env bucket inputs
      = (none, { acc := mergeAll (inputs.filterMap (decodeAt env bucket)),
                 log := inputs.map (fetchOf bucket) }) := by
  have := mergeLoop_all_ok env bucket [] inputs { acc := ([], 0), log := [] } h
  rw [List.append_nil] at this
  unfold mergeMapResults
  rw [this]
  simp [mergeLoop, mergeAll]

/-- C5, amended. For every list of partial results (each a Go map: every key
once), the merge loop of the reducer produces a mapping whose key set is the
union of the key sets of the inputs, in which the count of each word is the sum
of the counts of that word over all inputs (an input without the word counting
0) reduced to the 64-bit range of `int`, hence the exact sum whenever that sum
lies in the range; the total is the sum of the totals of the inputs, reduced in
the same way; merging a = 2 with a = 3, b = 1 gives a = 5, b = 1; and this is
what `mergeMapResults` returns when the partial results are what it fetches and
decodes from its inputs. -/
theorem mergeAll_sums (ps : List Payload) (hps : ∀ p ∈ ps, p.counts.WF) :
    (∀ w, w ∈ (mergeAll ps).1.keys ↔ ∃ p ∈ ps, w ∈ p.counts.keys) ∧
    (∀ w, (mergeAll ps).1.get w = wrap64 ((ps.map (fun p => p.counts.get w)).sum)) ∧
    (∀ w, -2 ^ 63 ≤ (ps.map (fun p => p.counts.get w)).sum →
      (ps.map (fun p => p.counts.get w)).sum < 2 ^ 63 →
      (mergeAll ps).1.get w = (ps.map (fun p => p.counts.get w)).sum) ∧
    (mergeAll ps).2 = wrap64 ((ps.map (fun p => p.total)).sum) ∧
    (-2 ^ 63 ≤ (ps.map (fun p => p.total)).sum → (ps.map (fun p => p.total)).sum < 2 ^ 63 →
      (mergeAll ps).2 = (ps.map (fun p => p.total)).sum) ∧
    (mergeAll ps).1.WF ∧
    mergeAll [⟨[("a".toList, 2)], 2⟩, ⟨[("a".toList, 3), ("b".toList, 1)], 4⟩]
      = ([("a".toList, 5), ("b".toList, 1)], 6) ∧
    (∀ (env : Env) (bucket : Str) (inputs : List Str),
      (∀ u ∈ inputs, (parseS3URL u).2.2 = none ∧ (parseS3URL u).1 = bucket ∧
        (decodeAt env bucket u).isSome = true) →
      inputs.filterMap (decodeAt env bucket) = ps →
      (mergeMapResults env bucket inputs).1 = none ∧
      (mergeMapResults env bucket inputs).2.acc = mergeAll ps) := by
  refine ⟨fun w => (mergeAll_spec ps hps w).1, fun w => (mergeAll_spec ps hps w).2.1, ?_,
    (mergeAll_spec ps hps []).2.2.1, ?_, (mergeAll_spec ps hps []).2.2.2, by decide, ?_⟩
  · intro w h1 h2
    rw [(mergeAll_spec ps hps w).2.1]
    exact wrap64_of_range _ (by norm_num at h1; exact h1) (by norm_num at h2; exact h2)
  · intro h1 h2
    rw [(mergeAll_spec ps hps []).2.2.1]
    exact wrap64_of_range _ (by norm_num at h1; exact h1) (by norm_num at h2; exact h2)
  · intro env bucket inputs h hps2
    rw [mergeMapResults_eq_mergeAll env bucket inputs h, hps2]
    exact ⟨rfl, rfl⟩

theorem mergeAll_sums_witness :
    (∀ p ∈ mergeExample, p.counts.WF) ∧
    (∀ w, w ∈ (mergeAll mergeExample).1.keys ↔ ∃ p ∈ mergeExample, w ∈ p.counts.keys) ∧
    (∀ w, (mergeAll mergeExample).1.get w
      = wrap64 ((mergeExample.map (fun p => p.counts.get w)).sum)) ∧
    (∀ w, -2 ^ 63 ≤ (mergeExample.map (fun p => p.counts.get w)).sum →
      (mergeExample.map (fun p => p.counts.get w)).sum < 2 ^ 63 →
      (mergeAll mergeExample).1.get w = (mergeExample.map (fun p => p.counts.get w)).sum) ∧
    (mergeAll mergeExample).2 = wrap64 ((mergeExample.map (fun p => p.total)).sum) ∧
    (-2 ^ 63 ≤ (mergeExample.map (fun p => p.total)).sum →
      (mergeExample.map (fun p => p.total)).sum < 2 ^ 63 →
      (mergeAll mergeExample).2 = (mergeExample.map (fun p => p.total)).sum) ∧
    (mergeAll mergeExample).1.WF ∧
    mergeAll [⟨[("a".toList, 2)], 2⟩, ⟨[("a".toList, 3), ("b".toList, 1)], 4⟩]
      = ([("a".toList, 5), ("b".toList, 1)], 6) ∧
    (∀ (env : Env) (bucket : Str) (inputs : List Str),
      (∀ u ∈ inputs, (parseS3URL u).2.2 = none ∧ (parseS3URL u).1 = bucket ∧
        (decodeAt env bucket u).isSome = true) →
      inputs.filterMap (decodeAt env bucket) = mergeExample →
      (mergeMapResults env bucket inputs).1 = none ∧
      (mergeMapResults env bucket inputs).2.acc = mergeAll mergeExample) :=
  ⟨by decide, mergeAll_sums mergeExample (by decide)⟩

/-! ## Mapper: the output index, proofs -/

theorem lastIndexAux_not_mem (sep : Char) (s : Str) (h : sep ∉ s) :
    ∀ (i : Nat) (found : Int), lastIndexAux sep i s found = found := by
  induction s with
  | nil => intro i found; rfl
  | cons c cs ih =>
    intro i found
    have hc : c ≠ sep := fun e => h (e ▸ List.mem_cons_self _ _)
    rw [lastIndexAux, if_neg hc]
    exact ih (fun hm => h (List.mem_cons_of_mem _ hm)) _ _

theorem lastIndexAux_append_sep (sep : Char) (seg : Str) (h : sep ∉ seg) (dir : Str) :
    ∀ (i : Nat) (found : Int),
      lastIndexAux sep i (dir ++ sep :: seg) found = ((i + dir.length : Nat) : Int) := by
  induction dir with
  | nil =>
    intro i found
    rw [List.nil_append, lastIndexAux, if_pos rfl, lastIndexAux_not_mem sep seg h]
    simp
  | cons c cs ih =>
    intro i found
    rw [List.cons_append, lastIndexAux, ih]
    simp only [List.length_cons]
    congr 1
    omega

theorem lastIndex_append_sep (dir seg : Str) (h : '/' ∉ seg) :
    lastIndex (dir ++ '/' :: seg) '/' = (dir.length : Int) := by
  unfold lastIndex
  rw [lastIndexAux_append_sep '/' seg h dir 0 (-1), Nat.zero_add]

theorem lastIndex_not_mem (seg : Str) (h : '/' ∉ seg) : lastIndex seg '/' = -1 := by
  unfold lastIndex
  exact lastIndexAux_not_mem '/' seg h 0 (-1)

theorem inferIndexFromKey_no_dir (seg : Str) (h : '/' ∉ seg) :
    inferIndexFromKey seg = indexOfSegment seg := by
  unfold inferIndexFromKey indexOfSegment
  simp only [lastIndex_not_mem seg h]
  rfl

theorem inferIndexFromKey_dir (dir seg : Str) (h : '/' ∉ seg) :
    inferIndexFromKey (dir ++ '/' :: seg) = indexOfSegment seg := by
  unfold inferIndexFromKey indexOfSegment
  simp only [lastIndex_append_sep dir seg h]
  have hd : (dir ++ '/' :: seg).drop (dir.length + 1) = seg := by
    rw [show dir ++ '/' :: seg = (dir ++ ['/']) ++ seg by simp]
    exact List.drop_left' (by simp)
  simp [hd]

theorem trimSuffix_append (a suf : Str) : trimSuffix (a ++ suf) suf = a := by
  unfold trimSuffix hasSuffix
  rw [if_pos (by rw [List.isSuffixOf_iff_suffix]; exact List.suffix_append _ _)]
  simp

theorem trimPrefix_append (pre a : Str) :
    hasPrefix (pre ++ a) pre = true ∧ trimPrefix (pre ++ a) pre = a := by
  have h : hasPrefix (pre ++ a) pre = true := by
    unfold hasPrefix
    rw [List.isPrefixOf_iff_prefix]
    exact List.prefix_append _ _
  refine ⟨h, ?_⟩
  unfold trimPrefix
  rw [if_pos h]
  simp

theorem indexOfSegment_match (idx : Str) :
    indexOfSegment ("chunk-".toList ++ idx ++ ".txt".toList) = idx := by
  unfold indexOfSegment
  rw [trimSuffix_append, (trimPrefix_append _ _).2, if_pos (trimPrefix_append _ _).1]

theorem indexOfSegment_no_txt (idx : Str)
    (h : hasSuffix ("chunk-".toList ++ idx) ".txt".toList = false) :
    indexOfSegment ("chunk-".toList ++ idx) = idx := by
  unfold indexOfSegment
  have ht : trimSuffix ("chunk-".toList ++ idx) ".txt".toList = "chunk-".toList ++ idx := by
    unfold trimSuffix
    rw [h]
    rfl
  rw [ht, (trimPrefix_append _ _).2, if_pos (trimPrefix_append _ _).1]

theorem slash_not_mem_itoa (i : Nat) : '/' ∉ itoa (i : Int) := by
  unfold itoa
  rw [if_neg (by omega)]
  intro h
  have := decDigits_all _ _ '/' h
  exact absurd this.1 (by decide)

theorem chunkKey_eq (outPrefix : Str) (i : Nat) :
    chunkKey outPrefix i
      = trimSuffix outPrefix ['/'] ++ '/' :: ("chunk-".toList ++ itoa (i : Int) ++ ".txt".toList) := by
  simp [chunkKey]

theorem inferIndexFromKey_chunkKey (outPrefix : Str) (i : Nat) :
    inferIndexFromKey (chunkKey outPrefix i) = itoa (i : Int) := by
  rw [chunkKey_eq, inferIndexFromKey_dir _ _ ?_, indexOfSegment_match]
  intro h
  rcases List.mem_append.1 h with h | h
  · rcases List.mem_append.1 h with h | h
    · exact absurd h (by decide)
    · exact slash_not_mem_itoa i h
  · exact absurd h (by decide)

/-- C11. When the trailing path segment of the key is `chunk-<index>.txt`,
`inferIndexFromKey` returns `<index>`; for the key `<prefix>/chunk-<i>.txt` under
which the splitter stores partition `i` it returns the decimal text of `i`; and
it returns `"x"` when the segment, with a final `.txt` removed if there is one,
does not begin with `chunk-`. But the `.txt` is not required: on a segment
`chunk-<index>` without `.txt`, which does not match the pattern, it returns
`<index>` and not `"x"`; so on the key `chunks/chunk-3` it returns `"3"`. -/
theorem inferIndexFromKey_spec :
    (∀ dir idx : Str, '/' ∉ idx →
      inferIndexFromKey (dir ++ "/".toList ++ ("chunk-".toList ++ idx ++ ".txt".toList)) = idx ∧
      inferIndexFromKey ("chunk-".toList ++ idx ++ ".txt".toList) = idx) ∧
    (∀ (outPrefix : Str) (i : Nat), inferIndexFromKey (chunkKey outPrefix i) = itoa (i : Int)) ∧
    (∀ dir seg : Str, '/' ∉ seg →
      hasPrefix (trimSuffix seg ".txt".toList) "chunk-".toList = false →
      inferIndexFromKey (dir ++ "/".toList ++ seg) = "x".toList ∧
      inferIndexFromKey seg = "x".toList) ∧
    (∀ dir idx : Str, '/' ∉ idx → hasSuffix ("chunk-".toList ++ idx) ".txt".toList = false →
      inferIndexFromKey (dir ++ "/".toList ++ ("chunk-".toList ++ idx)) = idx ∧
      inferIndexFromKey ("chunk-".toList ++ idx) = idx) ∧
    inferIndexFromKey "chunks/chunk-3".toList = "3".toList ∧
    inferIndexFromKey "chunks/chunk-3".toList ≠ "x".toList ∧
    (∀ idx : Str, "chunk-3".toList ≠ "chunk-".toList ++ idx ++ ".txt".toList) := by
  have hseg : ∀ (idx suf : Str), '/' ∉ idx → '/' ∉ suf → '/' ∉ "chunk-".toList ++ idx ++ suf := by
    intro idx suf h1 h2 h
    rcases List.mem_append.1 h with h | h
    · rcases List.mem_append.1 h with h | h
      · exact absurd h (by decide)
      · exact h1 h
    · exact h2 h
  have hdir : ∀ dir seg : Str, dir ++ "/".toList ++ seg = dir ++ '/' :: seg := by
    intro dir seg; simp
  refine ⟨?_, inferIndexFromKey_chunkKey, ?_, ?_, by decide, by decide, ?_⟩
  · intro dir idx h
    have hs := hseg idx ".txt".toList h (by decide)
    rw [hdir, inferIndexFromKey_dir _ _ hs, inferIndexFromKey_no_dir _ hs, indexOfSegment_match]
    exact ⟨rfl, rfl⟩
  · intro dir seg h hp
    rw [hdir, inferIndexFromKey_dir _ _ h, inferIndexFromKey_no_dir _ h]
    unfold indexOfSegment
    rw [hp]
    exact ⟨rfl, rfl⟩
  · intro dir idx h hsuf
    have hs : '/' ∉ "chunk-".toList ++ idx := by
      have := hseg idx [] h (by simp)
      simpa using this
    rw [hdir, inferIndexFromKey_dir _ _ hs, inferIndexFromKey_no_dir _ hs,
      indexOfSegment_no_txt idx hsuf]
    exact ⟨rfl, rfl⟩
  · intro idx h
    have := congrArg List.length h
    simp at this

/-! ## Re-running a stage at another time -/

theorem writeChunks_atTime (env : Env) (c r : Str) (m : Int) (bucket outPrefix : Str)
    (chunks : List (List Str)) :
    ∀ (i : Nat) (urls : List Str) (log : List StoreOp),
      writeChunks (env.atTime c r m) bucket outPrefix i chunks urls log
        = writeChunks env bucket outPrefix i chunks urls log := by
  induction chunks with
  | nil => intro i urls log; rfl
  | cons ch rest ih =>
    intro i urls log
    simp only [writeChunks]
    rw [show (env.atTime c r m).putObject = env.putObject from rfl]
    split
    · rfl
    · exact ih _ _ _

theorem handleSplit_atTime (env : Env) (c r : Str) (m : Int) (q : SplitQuery) :
    handleSplit (env.atTime c r m) q = handleSplit env q := by
  unfold handleSplit
  simp only [writeChunks_atTime]
  rfl

theorem mergeLoop_atTime (env : Env) (c r : Str) (m : Int) (bucket : Str) (inputs : List Str) :
    ∀ st : MergeState,
      mergeLoop (env.atTime c r m) bucket inputs st = mergeLoop env bucket inputs st := by
  induction inputs with
  | nil => intro st; rfl
  | cons u rest ih =>
    intro st
    simp only [mergeLoop]
    rw [show (env.atTime c r m).getObject = env.getObject from rfl,
      show (env.atTime c r m).unmarshal = env.unmarshal from rfl]
    simp only [ih]

/-- The store requests of the `/map` handler, spelled out. -/
theorem handleMap_log (env : Env) (q : MapQuery) :
    (handleMap env q).2 =
      if q.chunkS3.isEmpty then []
      else
        match parseS3URL q.chunkS3, env.clientErr with
        | (_, _, some _), _ => []
        | (_, _, none), some _ => []
        | (bucket, key, none), none =>
          match env.getObject bucket key with
          | .error _ => [StoreOp.get bucket key]
          | .ok text =>
            [StoreOp.get bucket key,
             StoreOp.put bucket
               (trimSuffix (q.outPrefix.getD "maps".toList) ['/'] ++ "/map-".toList
                 ++ inferIndexFromKey key ++ ".json".toList)
               (env.marshalMap q.chunkS3 (countWords env.lowerTable text).1
                 ((countWords env.lowerTable text).1.length : Int)
                 (countWords env.lowerTable text).2 env.createdAt)
               "application/json".toList] := by
  unfold handleMap
  split
  · rfl
  · rcases hp : parseS3URL q.chunkS3 with ⟨b, k, e⟩
    cases e with
    | some e => rfl
    | none =>
      cases hc : env.clientErr with
      | some e => rfl
      | none =>
        simp only
        cases hg : env.getObject b k with
        | error e => rfl
        | ok text =>
          simp only
          split <;> rfl

/-- The store requests of `handleReduce`, spelled out. -/
theorem handleReduce_log (env : Env) (q : ReduceQuery) :
    (handleReduce env q).2 =
      if q.inputs.isEmpty then []
      else if (splitCSV q.inputs).length < 1 then []
      else
        match env.clientErr, parseS3URL ((splitCSV q.inputs).headD []) with
        | some _, _ => []
        | none, (_, _, some _) => []
        | none, (bucket, _, none) =>
          match mergeMapResults env bucket (splitCSV q.inputs) with
          | (some _, st) => st.log
          | (none, st) =>
            st.log ++ [StoreOp.put bucket
              (trimSuffix (q.outPrefix.getD "final".toList) ['/'] ++ "/final.json".toList)
              (env.marshalFinal (splitCSV q.inputs) st.acc.1 (st.acc.1.length : Int) st.acc.2
                env.createdAt)
              "application/json".toList] := by
  unfold handleReduce
  by_cases h1 : q.inputs.isEmpty = true
  · rw [if_pos h1, if_pos h1]
  · rw [if_neg h1, if_neg h1]
    simp only []
    by_cases h2 : (splitCSV q.inputs).length < 1
    · rw [if_pos h2, if_pos h2]
    · rw [if_neg h2, if_neg h2]
      cases hc : env.clientErr with
      | some e => rfl
      | none =>
        rcases hp : parseS3URL ((splitCSV q.inputs).headD []) with ⟨b, k, e⟩
        cases e with
        | some e => rfl
        | none =>
          simp only
          rcases hm : mergeMapResults env b (splitCSV q.inputs) with ⟨resp, st⟩
          cases resp with
          | some resp => rfl
          | none =>
            simp only
            split
            · rfl
            · split <;> rfl

theorem mergeLoop_written (env : Env) (bucket : Str) (inputs : List Str) :
    ∀ st : MergeState,
      (mergeLoop env bucket inputs st).2.log.filterMap StoreOp.written
        = st.log.filterMap StoreOp.written := by
  induction inputs with
  | nil => intro st; rfl
  | cons u rest ih =>
    intro st
    rcases mergeLoop_cons_log env bucket u rest st with ⟨-, hl | hl⟩ | ⟨p, hp⟩
    · rw [hl]
    · rw [hl]
      simp [fetchOf, StoreOp.written]
    · rw [hp, ih]
      simp [fetchOf, StoreOp.written]

theorem mergeMapResults_atTime (env : Env) (c r : Str) (m : Int) (bucket : Str)
    (inputs : List Str) :
    mergeMapResults (env.atTime c r m) bucket inputs = mergeMapResults env bucket inputs :=
  mergeLoop_atTime env c r m bucket inputs _

theorem handleMap_atTime (env : Env) (c r : Str) (m : Int) (q : MapQuery) :
    (handleMap (env.atTime c r m) q).2.map StoreOp.address
        = (handleMap env q).2.map StoreOp.address ∧
    (c = env.createdAt → (handleMap (env.atTime c r m) q).2 = (handleMap env q).2) ∧
    (c ≠ env.createdAt → (∀ a b x y, Function.Injective (env.marshalMap a b x y)) →
      (handleMap env q).2.filterMap StoreOp.written ≠ [] →
      (handleMap (env.atTime c r m) q).2.filterMap StoreOp.written
        ≠ (handleMap env q).2.filterMap StoreOp.written) := by
  rw [handleMap_log, handleMap_log]
  simp only [Env.atTime]
  split
  · simp
  · rcases hp : parseS3URL q.chunkS3 with ⟨b, k, e⟩
    cases e with
    | some e => simp
    | none =>
      cases hc : env.clientErr with
      | some e => simp
      | none =>
        simp only
        cases hg : env.getObject b k with
        | error e => simp [StoreOp.written]
        | ok text =>
          simp only
          refine ⟨rfl, fun h => by rw [h], fun hne hinj _ => ?_⟩
          simp only [List.filterMap_cons, StoreOp.written, List.filterMap_nil, ne_eq,
            List.cons.injEq, Option.some.injEq, Prod.mk.injEq, true_and, and_true]
          intro h
          exact hne (hinj _ _ _ _ h)

theorem handleReduce_atTime (env : Env) (c r : Str) (m : Int) (q : ReduceQuery) :
    (handleReduce (env.atTime c r m) q).2.map StoreOp.address
        = (handleReduce env q).2.map StoreOp.address ∧
    (c = env.createdAt → (handleReduce (env.atTime c r m) q).2 = (handleReduce env q).2) ∧
    (c ≠ env.createdAt → (∀ a b x y, Function.Injective (env.marshalFinal a b x y)) →
      (handleReduce env q).2.filterMap StoreOp.written ≠ [] →
      (handleReduce (env.atTime c r m) q).2.filterMap StoreOp.written
        ≠ (handleReduce env q).2.filterMap StoreOp.written) := by
  rw [handleReduce_log, handleReduce_log]
  simp only [mergeMapResults_atTime]
  simp only [Env.atTime]
  split
  · simp
  · split
    · simp
    · cases hc : env.clientErr with
      | some e => simp
      | none =>
        rcases hp : parseS3URL ((splitCSV q.inputs).headD []) with ⟨b, k, e⟩
        cases e with
        | some e => simp
        | none =>
          simp only
          rcases hm : mergeMapResults env b (splitCSV q.inputs) with ⟨resp, st⟩
          have hw : st.log.filterMap StoreOp.written = [] := by
            have := mergeLoop_written env b (splitCSV q.inputs) { acc := ([], 0), log := [] }
            unfold mergeMapResults at hm
            rw [hm] at this
            simpa using this
          cases resp with
          | some resp => exact ⟨rfl, fun _ => rfl, fun _ _ h => absurd hw h⟩
          | none =>
            simp only
            refine ⟨by simp [StoreOp.address], fun h => by rw [h], fun hne hinj _ => ?_⟩
            simp only [List.filterMap_append, List.filterMap_cons, StoreOp.written,
              List.filterMap_nil, ne_eq, List.append_cancel_left_eq, List.cons.injEq,
              Option.some.injEq, Prod.mk.injEq, true_and, and_true]
            intro h
            exact hne (hinj _ _ _ _ h)

/-- C12, as stated, fails for the mapper and the reducer: two runs on the same
chunk (or the same partial results) with the same parameters, one reading the
clock as `t0` and one as `t9`, write at the same key documents that differ, each
carrying its own `createdAt`. -/
theorem rerun_changes_written_documents :
    (handleMap stampEnv ⟨"s3://b/chunks/chunk-1.txt".toList, none⟩).2.filterMap StoreOp.written
      = [("b".toList, "maps/map-1.json".toList, "createdAt=t0".toList)] ∧
    (handleMap (stampEnv.atTime "t9".toList "t9".toList 5)
        ⟨"s3://b/chunks/chunk-1.txt".toList, none⟩).2.filterMap StoreOp.written
      = [("b".toList, "maps/map-1.json".toList, "createdAt=t9".toList)] ∧
    (handleReduce stampEnv ⟨"s3://b/maps/map-0.json".toList, none⟩).2.filterMap StoreOp.written
      = [("b".toList, "final/final.json".toList, "createdAt=t0".toList)] ∧
    (handleReduce (stampEnv.atTime "t9".toList "t9".toList 5)
        ⟨"s3://b/maps/map-0.json".toList, none⟩).2.filterMap StoreOp.written
      = [("b".toList, "final/final.json".toList, "createdAt=t9".toList)] := by
  decide

/-- C12, amended. Run a stage again on the same store contents with the same
parameters, at another time (other clock readings `c`, `r`, `m`). Split answers
and writes exactly as before: the same partition objects, byte for byte, at the
same keys. The mapper and the reducer send the same requests to the same keys,
so each document is written at the same key; the document written is the same
when the run reads the same `createdAt`, and, the JSON encoding being injective
in `createdAt`, it differs when the run reads another `createdAt`. -/
theorem rerun_at_another_time (env : Env) (c r : Str) (m : Int) :
    (∀ q : SplitQuery, handleSplit (env.atTime c r m) q = handleSplit env q) ∧
    (∀ q : MapQuery,
      (handleMap (env.atTime c r m) q).2.map StoreOp.address
          = (handleMap env q).2.map StoreOp.address ∧
      (c = env.createdAt → (handleMap (env.atTime c r m) q).2 = (handleMap env q).2) ∧
      (c ≠ env.createdAt → (∀ a b x y, Function.Injective (env.marshalMap a b x y)) →
        (handleMap env q).2.filterMap StoreOp.written ≠ [] →
        (handleMap (env.atTime c r m) q).2.filterMap StoreOp.written
          ≠ (handleMap env q).2.filterMap StoreOp.written)) ∧
    (∀ q : ReduceQuery,
      (handleReduce (env.atTime c r m) q).2.map StoreOp.address
          = (handleReduce env q).2.map StoreOp.address ∧
      (c = env.createdAt → (handleReduce (env.atTime c r m) q).2 = (handleReduce env q).2) ∧
      (c ≠ env.createdAt → (∀ a b x y, Function.Injective (env.marshalFinal a b x y)) →
        (handleReduce env q).2.filterMap StoreOp.written ≠ [] →
        (handleReduce (env.atTime c r m) q).2.filterMap StoreOp.written
          ≠ (handleReduce env q).2.filterMap StoreOp.written)) :=
  ⟨handleSplit_atTime env c r m, handleMap_atTime env c r m, handleReduce_atTime env c r m⟩


end MapReduce
